import Mathlib

/-!
Verification of the markdown section patch engine of the Writegeist backend
(ai-service/utils/normalize_md.py and ai-service/main.py).

Python strings are embedded as `List Char`; every regular-expression
substitution of the source is embedded as an explicit scanner with the same
left-to-right, continue-after-replacement semantics.
-/

namespace Writegeist

/-- Python whitespace: the characters matched by the regex class \s and
stripped by str.strip(), i.e. CPython's Py_UNICODE_ISSPACE — tab through
carriage return, the four information separators, space, next line,
no-break space, ogham space mark, the en/em quads and spaces through hair
space, line separator, paragraph separator, narrow no-break space, medium
mathematical space and ideographic space. -/
def isPySpace (c : Char) : Bool :=
  c = '\t' || c = '\n' || c = '\x0b' || c = '\x0c' || c = '\r' ||
  c = '\x1c' || c = '\x1d' || c = '\x1e' || c = '\x1f' || c = ' ' ||
  c = '\x85' || c = '\xa0' || c = '\u1680' || c = '\u2000' ||
  c = '\u2001' || c = '\u2002' || c = '\u2003' || c = '\u2004' ||
  c = '\u2005' || c = '\u2006' || c = '\u2007' || c = '\u2008' ||
  c = '\u2009' || c = '\u200a' || c = '\u2028' || c = '\u2029' ||
  c = '\u202f' || c = '\u205f' || c = '\u3000'

/-- str.lstrip() -/
def pyLstrip (l : List Char) : List Char := l.dropWhile isPySpace

/-- str.rstrip() -/
def pyRstrip (l : List Char) : List Char := (l.reverse.dropWhile isPySpace).reverse

/-- str.strip() -/
def pyStrip (l : List Char) : List Char := pyRstrip (pyLstrip l)

/-- str.split('\n'); always returns at least one (possibly empty) line. -/
def splitNl : List Char → List (List Char)
  | [] => [[]]
  | c :: rest =>
    if c = '\n' then [] :: splitNl rest
    else
      match splitNl rest with
      | h :: t => (c :: h) :: t
      | [] => [[c]]

/-- '\n'.join(lines) -/
def joinNl : List (List Char) → List Char
  | [] => []
  | [l] => l
  | l :: rest => l ++ '\n' :: joinNl rest

/-! ## Literal substitutions

re.sub with a literal pattern (or a literal alternation) and str.replace
share the same semantics: scan left to right, replace each occurrence,
continue scanning after the replaced text.  `scanRepl` implements exactly
that for a list of (pattern, replacement) alternatives tried in order. -/

def scanRepl (pats : List (List Char × List Char)) : Nat → List Char → List Char
  | 0, l => l
  | _ + 1, [] => []
  | n + 1, c :: rest =>
    match pats.find? (fun pr => pr.1.isPrefixOf (c :: rest)) with
    | some pr => pr.2 ++ scanRepl pats n ((c :: rest).drop pr.1.length)
    | none => c :: scanRepl pats n rest

def runScan (pats : List (List Char × List Char)) (l : List Char) : List Char :=
  scanRepl pats l.length l

/-! ## clean_html_artifacts -/

/-- re.sub(r'</li><li>', '\n* ', text) -/
def subLiPair (l : List Char) : List Char := runScan [("</li><li>".data, "\n* ".data)] l

/-- re.sub(r'</?ul>', '', text) -/
def subUl (l : List Char) : List Char := runScan [("</ul>".data, []), ("<ul>".data, [])] l

/-- re.sub(r'</?ol>', '', text) -/
def subOl (l : List Char) : List Char := runScan [("</ol>".data, []), ("<ol>".data, [])] l

/-- re.sub(r'<li[^>]*>', '* ', text), fueled scanner: at '<li', the match
extends through the first following '>', if any; with no following '>'
there is no match and the scan advances one character. -/
def subLiOpenF : Nat → List Char → List Char
  | 0, l => l
  | _ + 1, [] => []
  | n + 1, c :: rest =>
    if "<li".data.isPrefixOf (c :: rest) then
      match ((c :: rest).drop 3).dropWhile (fun d => !(d == '>')) with
      | _ :: after => '*' :: ' ' :: subLiOpenF n after
      | [] => c :: subLiOpenF n rest
    else c :: subLiOpenF n rest

def subLiOpen (l : List Char) : List Char := subLiOpenF l.length l

/-- re.sub(r'</li>', '', text) -/
def subLiClose (l : List Char) : List Char := runScan [("</li>".data, [])] l

/-- re.sub(r'<[^>]*>', '', text), fueled scanner: a '<' with some later '>'
is removed together with everything up to that first '>'. -/
def removeTagsF : Nat → List Char → List Char
  | 0, l => l
  | _ + 1, [] => []
  | n + 1, c :: rest =>
    if c == '<' then
      match rest.dropWhile (fun d => !(d == '>')) with
      | _ :: after => removeTagsF n after
      | [] => c :: removeTagsF n rest
    else c :: removeTagsF n rest

def removeTags (l : List Char) : List Char := removeTagsF l.length l

/-- text.replace('&lt;', '<') -/
def subEntLt (l : List Char) : List Char := runScan [("&lt;".data, "<".data)] l

/-- text.replace('&gt;', '>') -/
def subEntGt (l : List Char) : List Char := runScan [("&gt;".data, ">".data)] l

/-- text.replace('&amp;', '&') -/
def subEntAmp (l : List Char) : List Char := runScan [("&amp;".data, "&".data)] l

/-- text.replace('&quot;', '"') -/
def subEntQuot (l : List Char) : List Char := runScan [("&quot;".data, "\"".data)] l

/-- text.replace('&#39;', "'") -/
def subEntApos (l : List Char) : List Char := runScan [("&#39;".data, "'".data)] l

/-- text.replace('&nbsp;', ' ') -/
def subEntNbsp (l : List Char) : List Char := runScan [("&nbsp;".data, " ".data)] l

/-- clean_html_artifacts from utils/normalize_md.py. -/
def clean_html_artifacts (text : List Char) : List Char :=
  if text.isEmpty then []
  else
    subEntNbsp (subEntApos (subEntQuot (subEntAmp (subEntGt (subEntLt
      (removeTags (subLiClose (subLiOpen (subOl (subUl (subLiPair text)))))))))))

/-! ## normalize_markdown -/

/-- text.replace('\r\n', '\n') -/
def subCrlf (l : List Char) : List Char := runScan [("\r\n".data, "\n".data)] l

/-- text.replace('\r', '\n') -/
def subCr (l : List Char) : List Char := l.map (fun c => if c = '\r' then '\n' else c)

/-- Line-ending normalization: text.replace('\r\n','\n').replace('\r','\n'). -/
def crNorm (l : List Char) : List Char := subCr (subCrlf l)

/-- re.sub(r'[ \t]+$', '', text, flags=re.MULTILINE), acting on one line:
remove trailing spaces and tabs. -/
def stripLineT (l : List Char) : List Char :=
  (l.reverse.dropWhile (fun c => c == ' ' || c == '\t')).reverse

/-- Does the line match re.match(r'^\s*\*\s*\*\s+', line)?  The pattern is
a whitespace run, an asterisk, a whitespace run, an asterisk, and at least
one whitespace character. -/
def dblBullet (l : List Char) : Bool :=
  match l.dropWhile isPySpace with
  | c1 :: r2 =>
    c1 == '*' &&
      match r2.dropWhile isPySpace with
      | c2 :: r4 =>
        c2 == '*' &&
          match r4 with
          | c3 :: _ => isPySpace c3
          | [] => false
      | [] => false
  | [] => false

/-- re.sub(r'^\s*\*\s*\*\s+', '* ', line): collapse a doubled leading bullet
marker; the matched prefix (with all whitespace runs taken greedily) is
replaced by "* ". -/
def fixBullet (l : List Char) : List Char :=
  if dblBullet l then
    '*' :: ' ' ::
      ((((l.dropWhile isPySpace).tail).dropWhile isPySpace).tail).dropWhile isPySpace
  else l

/-- The per-line loop of normalize_markdown: skip lines whose strip() is a
single asterisk, rewrite doubled bullet markers. -/
def bulletLine (l : List Char) : Option (List Char) :=
  if pyStrip l = ['*'] then none else some (fixBullet l)

/-- re.sub(r'\n\s*\n\s*\n\s*\n+', '\n\n', text), fueled: at a newline, the
greedy match covers the maximal whitespace run up to its last newline and
succeeds when that run holds at least four newlines. -/
def regexAF : Nat → List Char → List Char
  | 0, l => l
  | _ + 1, [] => []
  | n + 1, c :: rest =>
    if c = '\n' then
      let w := (c :: rest).takeWhile isPySpace
      if 4 ≤ w.count '\n' then
        let w' := (w.reverse.dropWhile (fun d => !(d == '\n'))).reverse
        '\n' :: '\n' :: regexAF n ((c :: rest).drop w'.length)
      else c :: regexAF n rest
    else c :: regexAF n rest

def regexA (l : List Char) : List Char := regexAF l.length l

/-- re.sub(r'\n{3,}', '\n\n', text), fueled: collapse every maximal run of
three or more newlines to exactly two. -/
def regexBF : Nat → List Char → List Char
  | 0, l => l
  | _ + 1, [] => []
  | n + 1, c :: rest =>
    if c = '\n' then
      let k := ((c :: rest).takeWhile (fun d => d == '\n')).length
      if 3 ≤ k then '\n' :: '\n' :: regexBF n ((c :: rest).drop k)
      else c :: regexBF n rest
    else c :: regexBF n rest

def regexB (l : List Char) : List Char := regexBF l.length l

/-- normalize_markdown from utils/normalize_md.py. -/
def normalize_markdown (text : List Char) : List Char :=
  if text.isEmpty then []
  else
    let t1 := clean_html_artifacts text
    let t2 := crNorm t1
    let lines := (splitNl t2).map stripLineT
    let t4 := joinNl (lines.filterMap bulletLine)
    let t5 := regexB (regexA t4)
    let t6 := t5.dropWhile (fun c => c == '\n')
    pyRstrip t6 ++ ['\n']

/-! ## Section locator/editor (main.py) -/

/-- Index of the first element satisfying p. -/
def firstMatch (p : α → Bool) : List α → Option Nat
  | [] => none
  | a :: t => if p a then some 0 else (firstMatch p t).map (· + 1)

/-- Does `line` match re.match(rf'^\s*##\s+{re.escape(name)}\s*$', line, re.I)?
The name is literal (re.escape); matching is case-insensitive; the run of
whitespace after '##' may take any nonempty length (backtracking). -/
def headingMatch (name line : List Char) : Bool :=
  match line.dropWhile isPySpace with
  | c1 :: c2 :: rest =>
    c1 == '#' && c2 == '#' &&
      (List.range (rest.takeWhile isPySpace).length).any (fun k0 =>
        let r := rest.drop (k0 + 1)
        name.length ≤ r.length &&
          (r.take name.length).map Char.toLower == name.map Char.toLower &&
          (r.drop name.length).all isPySpace)
  | _ => false

/-- Does `line` match re.match(r'^\s*##\s+', line): a section boundary. -/
def genericHeading (line : List Char) : Bool :=
  match line.dropWhile isPySpace with
  | c1 :: c2 :: c3 :: _ => c1 == '#' && c2 == '#' && isPySpace c3
  | _ => false

/-- not line.strip() -/
def isBlankLine (l : List Char) : Bool := pyStrip l == []

/-- Length of a section body: the number of lines before the next '## '
heading (all of them if none follows).  The loop computing section_end in
main.py yields section_end = section_start + bodyLen (lines[section_start:]). -/
def bodyLen (t : List (List Char)) : Nat :=
  (firstMatch genericHeading t).getD t.length

/-- Remove trailing blank lines. -/
def dropBlankEnd (content : List (List Char)) : List (List Char) :=
  (content.reverse.dropWhile isBlankLine).reverse

/-- The trimming applied by extract_section to the raw body lines: strip
leading and trailing blank lines, then drop a leading standalone-asterisk
line together with the blank lines after it. -/
def bodyCleanup (content : List (List Char)) : List (List Char) :=
  let c2 := dropBlankEnd (content.dropWhile isBlankLine)
  match c2 with
  | h :: t => if pyStrip h = ['*'] then t.dropWhile isBlankLine else c2
  | [] => []

/-- A plain text line: contains no newline, is not blank, is not a '## '
heading line, and is not a standalone asterisk. -/
def plainLine (l : List Char) : Bool :=
  l.all (fun c => !(c == '\n')) && !(isBlankLine l) && !(genericHeading l) &&
    !(pyStrip l == ['*'])

/-- The string holds a tag-like substring: a '<' with a '>' somewhere after
it.  Any such pair contains a minimal substring matching the tag pattern
re r'<[^>]*>' (cut at the first '>' after the '<'), and conversely. -/
def hasTagPattern (l : List Char) : Prop :=
  ∃ a b c, l = a ++ '<' :: b ++ '>' :: c

/-- The string contains pat as a contiguous substring. -/
def containsSeq (pat l : List Char) : Prop :=
  ∃ a b, l = a ++ pat ++ b

/-- Does the string contain a run of three (or more) consecutive newlines? -/
def hasTriple : List Char → Bool
  | [] => false
  | c :: rest => (c == '\n' && rest.take 2 == ['\n', '\n']) || hasTriple rest

/-- An adjacent pair is bad when a whitespace character other than newline
immediately precedes a newline (a line with trailing whitespace). -/
def pairOk (c d : Char) : Bool :=
  !(isPySpace c && !(c == '\n') && d == '\n')

/-- No whitespace character other than newline immediately precedes a
newline anywhere in the string. -/
def noWsNl : List Char → Bool
  | [] => true
  | [_] => true
  | c :: d :: t => pairOk c d && noWsNl (d :: t)

/-- extract_section from main.py: lines[section_start:section_end], then
the blank-line/asterisk cleanup, joined back with newlines. -/
def extract_section (markdown name : List Char) : List Char :=
  let lines := splitNl markdown
  match firstMatch (headingMatch name) lines with
  | none => []
  | some i =>
    let t := lines.drop (i + 1)
    joinNl (bodyCleanup (t.take (bodyLen t)))

/-- apply_patch_to_section from main.py. -/
def apply_patch_to_section (markdown name newContent : List Char) : List Char :=
  let lines := splitNl markdown
  match firstMatch (headingMatch name) lines with
  | none =>
    let sep : List (List Char) :=
      match lines.getLast? with
      | some last => if pyStrip last = [] then [] else [[]]
      | none => []
    joinNl (lines ++ sep ++ [['#', '#', ' '] ++ name] ++ [[]] ++ splitNl newContent)
  | some i =>
    let t := lines.drop (i + 1)
    joinNl (lines.take (i + 1) ++
      (if pyStrip newContent = [] then [] else splitNl newContent) ++
      t.drop (bodyLen t))

/-- create_default_project_markdown from main.py. -/
def default_project_markdown : List Char :=
  "# My Project\n\n## Ideas-Notes\n\n## Setting\n\n## Full Outline\n\n## Characters".data

/-- The document accept_patch actually patches: the stored document, or —
`if not current_markdown` — the default project skeleton. -/
def patchBase (doc : List Char) : List Char :=
  if doc = [] then default_project_markdown else doc

/-- The pure data path of accept_patch in main.py (spec name:
apply_external_patch): reject a blank section name, short-circuit the
FULL_DOCUMENT_SYNC sentinel, otherwise substitute the default skeleton
for an empty stored document, normalize the body, patch the section, and
normalize the whole result. -/
def apply_external_patch (doc sec body : List Char) : Option (List Char) :=
  if pyStrip sec = [] then none
  else if pyStrip sec = "FULL_DOCUMENT_SYNC".data then some (normalize_markdown body)
  else
    some (normalize_markdown
      (apply_patch_to_section (patchBase doc) (pyStrip sec)
        (normalize_markdown body)))

/-! ## Lemmas: splitting and joining lines -/

theorem splitNl_ne_nil (l : List Char) : splitNl l ≠ [] := by
  cases l with
  | nil => simp [splitNl]
  | cons c rest =>
    simp only [splitNl]
    split
    · simp
    · split <;> simp

theorem joinNl_cons (l : List Char) (L : List (List Char)) (h : L ≠ []) :
    joinNl (l :: L) = l ++ '\n' :: joinNl L := by
  cases L with
  | nil => exact absurd rfl h
  | cons l2 L2 => rfl

theorem joinNl_splitNl (l : List Char) : joinNl (splitNl l) = l := by
  induction l with
  | nil => rfl
  | cons c rest ih =>
    simp only [splitNl]
    by_cases hc : c = '\n'
    · subst hc
      rw [if_pos rfl, joinNl_cons _ _ (splitNl_ne_nil rest), ih]
      rfl
    · rw [if_neg hc]
      rcases hsp : splitNl rest with _ | ⟨h, t⟩
      · exact absurd hsp (splitNl_ne_nil rest)
      · have hj : joinNl (h :: t) = rest := by rw [← hsp, ih]
        cases t with
        | nil =>
          simp only [joinNl] at hj ⊢
          rw [hj]
        | cons h2 t2 =>
          rw [joinNl_cons _ _ (by simp)]
          rw [joinNl_cons _ _ (by simp)] at hj
          simp only [List.cons_append, hj]

theorem splitNl_of_no_nl (l : List Char) (h : '\n' ∉ l) : splitNl l = [l] := by
  induction l with
  | nil => rfl
  | cons c rest ih =>
    have hc : c ≠ '\n' := fun hc => h (hc ▸ List.mem_cons_self c rest)
    have hr : '\n' ∉ rest := fun hr => h (List.mem_cons_of_mem c hr)
    simp only [splitNl, if_neg hc, ih hr]

theorem splitNl_append_nl (a b : List Char) (ha : '\n' ∉ a) :
    splitNl (a ++ '\n' :: b) = a :: splitNl b := by
  induction a with
  | nil => simp [splitNl]
  | cons c a ih =>
    have hc : c ≠ '\n' := fun hc => ha (hc ▸ List.mem_cons_self c a)
    have ha' : '\n' ∉ a := fun h => ha (List.mem_cons_of_mem c h)
    rw [List.cons_append]
    simp only [splitNl, if_neg hc]
    rw [ih ha']

theorem splitNl_joinNl (L : List (List Char)) (hne : L ≠ [])
    (h : ∀ x ∈ L, '\n' ∉ x) : splitNl (joinNl L) = L := by
  induction L with
  | nil => exact absurd rfl hne
  | cons l L ih =>
    cases L with
    | nil => simpa [joinNl] using splitNl_of_no_nl l (h l (by simp))
    | cons l2 L2 =>
      rw [joinNl_cons _ _ (by simp), splitNl_append_nl _ _ (h l (by simp)),
        ih (by simp) (fun x hx => h x (List.mem_cons_of_mem l hx))]

theorem no_nl_of_mem_splitNl (l : List Char) :
    ∀ x ∈ splitNl l, '\n' ∉ x := by
  induction l with
  | nil => intro x hx; simp [splitNl] at hx; simp [hx]
  | cons c rest ih =>
    intro x hx
    simp only [splitNl] at hx
    by_cases hc : c = '\n'
    · rw [if_pos hc] at hx
      rcases List.mem_cons.mp hx with h | h
      · simp [h]
      · exact ih x h
    · rw [if_neg hc] at hx
      rcases hsp : splitNl rest with _ | ⟨h0, t⟩
      · exact absurd hsp (splitNl_ne_nil rest)
      · rw [hsp] at hx
        rcases List.mem_cons.mp hx with h | h
        · subst h
          intro hmem
          rcases List.mem_cons.mp hmem with h | h
          · exact hc h.symm
          · exact ih h0 (hsp ▸ List.mem_cons_self h0 t) h
        · exact ih x (hsp ▸ List.mem_cons_of_mem h0 h)

theorem mem_joinNl {c : Char} {x : List Char} {L : List (List Char)}
    (hx : x ∈ L) (hc : c ∈ x) : c ∈ joinNl L := by
  induction L with
  | nil => simp at hx
  | cons l L ih =>
    cases L with
    | nil =>
      rcases List.mem_cons.mp hx with h | h
      · subst h; exact hc
      · simp at h
    | cons l2 L2 =>
      rw [joinNl_cons _ _ (by simp)]
      rcases List.mem_cons.mp hx with h | h
      · subst h; exact List.mem_append_left _ hc
      · exact List.mem_append_right _ (List.mem_cons_of_mem _ (ih h))

theorem mem_of_mem_joinNl {c : Char} {L : List (List Char)}
    (hc : c ∈ joinNl L) : c = '\n' ∨ ∃ x ∈ L, c ∈ x := by
  induction L with
  | nil => simp [joinNl] at hc
  | cons l L ih =>
    cases L with
    | nil => exact Or.inr ⟨l, by simp, hc⟩
    | cons l2 L2 =>
      rw [joinNl_cons _ _ (by simp)] at hc
      rcases List.mem_append.mp hc with h | h
      · exact Or.inr ⟨l, by simp, h⟩
      · rcases List.mem_cons.mp h with h | h
        · exact Or.inl h
        · rcases ih h with h | ⟨x, hx, hcx⟩
          · exact Or.inl h
          · exact Or.inr ⟨x, List.mem_cons_of_mem _ hx, hcx⟩

/-! ## Lemmas: firstMatch -/

theorem firstMatch_eq_none_iff (p : α → Bool) (l : List α) :
    firstMatch p l = none ↔ ∀ x ∈ l, p x = false := by
  induction l with
  | nil => simp [firstMatch]
  | cons a t ih =>
    simp only [firstMatch]
    by_cases hp : p a
    · simp [hp]
    · rw [if_neg hp]
      constructor
      · intro h x hx
        have ht : firstMatch p t = none := by
          cases hft : firstMatch p t
          · rfl
          · rw [hft] at h; simp at h
        rcases List.mem_cons.mp hx with h1 | h1
        · subst h1; exact Bool.eq_false_iff.mpr hp
        · exact (ih.mp ht) x h1
      · intro h
        rw [ih.mpr (fun x hx => h x (List.mem_cons_of_mem a hx))]
        rfl

theorem firstMatch_eq_some_iff (p : α → Bool) (l : List α) (i : Nat) :
    firstMatch p l = some i ↔
      ∃ a x b, l = a ++ x :: b ∧ a.length = i ∧ p x = true ∧
        ∀ y ∈ a, p y = false := by
  induction l generalizing i with
  | nil =>
    simp only [firstMatch]
    constructor
    · intro h; cases h
    · rintro ⟨a, x, b, habs, -⟩
      exact absurd habs (by simp)
  | cons c t ih =>
    simp only [firstMatch]
    by_cases hp : p c
    · rw [if_pos hp]
      constructor
      · intro h
        cases h
        exact ⟨[], c, t, rfl, rfl, hp, by simp⟩
      · rintro ⟨a, x, b, heq, hlen, hx, hall⟩
        cases a with
        | nil => cases heq; simp [← hlen]
        | cons a0 a1 =>
          have hca : c = a0 := by
            have := congrArg (List.head? ·) heq
            simpa using this
          exact absurd hp (by simpa [← hca] using hall a0 (by simp))
    · rw [if_neg hp]
      constructor
      · intro h
        rcases Option.map_eq_some.mp h with ⟨j, hj, hji⟩
        rcases (ih j).mp hj with ⟨a, x, b, heq, hlen, hx, hall⟩
        refine ⟨c :: a, x, b, by rw [heq]; rfl, by simp [hlen, hji], hx, ?_⟩
        intro y hy
        rcases List.mem_cons.mp hy with h1 | h1
        · subst h1; exact Bool.eq_false_iff.mpr hp
        · exact hall y h1
      · rintro ⟨a, x, b, heq, hlen, hx, hall⟩
        cases a with
        | nil =>
          cases heq
          exact absurd hx (by simp [hp])
        | cons a0 a1 =>
          have hca : c = a0 := by
            have := congrArg (List.head? ·) heq
            simpa using this
          have ht : t = a1 ++ x :: b := by
            have := congrArg List.tail heq
            simpa using this
          have hfm : firstMatch p t = some a1.length :=
            (ih a1.length).mpr ⟨a1, x, b, ht, rfl, hx,
              fun y hy => hall y (List.mem_cons_of_mem a0 hy)⟩
          rw [hfm, ← hlen]
          rfl

theorem firstMatch_append_of_some {p : α → Bool} {a : List α} {i : Nat}
    (h : firstMatch p a = some i) (b : List α) :
    firstMatch p (a ++ b) = some i := by
  rcases (firstMatch_eq_some_iff p a i).mp h with ⟨x, y, z, heq, hlen, hy, hall⟩
  exact (firstMatch_eq_some_iff p (a ++ b) i).mpr
    ⟨x, y, z ++ b, by rw [heq]; simp, hlen, hy, hall⟩

theorem firstMatch_append_of_none {p : α → Bool} {a : List α}
    (h : firstMatch p a = none) (b : List α) :
    firstMatch p (a ++ b) = (firstMatch p b).map (· + a.length) := by
  induction a with
  | nil => simp
  | cons c t ih =>
    rw [List.cons_append]
    simp only [firstMatch] at h ⊢
    by_cases hp : p c
    · rw [if_pos hp] at h; cases h
    · rw [if_neg hp] at h ⊢
      have h' : firstMatch p t = none := by
        cases hft : firstMatch p t
        · rfl
        · rw [hft] at h; simp at h
      rw [ih h']
      cases firstMatch p b with
      | none => rfl
      | some j => exact congrArg some (by simp; omega)

/-! ## Lemmas: python strip -/

theorem mem_of_mem_dropWhile {p : α → Bool} {l : List α} {x : α}
    (h : x ∈ l.dropWhile p) : x ∈ l := by
  induction l with
  | nil => simp at h
  | cons a t ih =>
    rw [List.dropWhile_cons] at h
    by_cases hp : p a
    · rw [if_pos hp] at h
      exact List.mem_cons_of_mem a (ih h)
    · rw [if_neg hp] at h
      exact h

theorem mem_takeWhile_is_p {p : α → Bool} {l : List α} {x : α}
    (h : x ∈ l.takeWhile p) : p x = true := by
  induction l with
  | nil => simp at h
  | cons a t ih =>
    rw [List.takeWhile_cons] at h
    by_cases hp : p a
    · rw [if_pos hp] at h
      rcases List.mem_cons.mp h with h1 | h1
      · subst h1; exact hp
      · exact ih h1
    · rw [if_neg hp] at h
      simp at h

theorem pyLstrip_eq_nil_iff (l : List Char) :
    pyLstrip l = [] ↔ ∀ c ∈ l, isPySpace c = true := by
  simp [pyLstrip, List.dropWhile_eq_nil_iff]

theorem pyRstrip_eq_nil_iff (l : List Char) :
    pyRstrip l = [] ↔ ∀ c ∈ l, isPySpace c = true := by
  simp [pyRstrip, List.dropWhile_eq_nil_iff]

theorem pyStrip_eq_nil_iff (l : List Char) :
    pyStrip l = [] ↔ ∀ c ∈ l, isPySpace c = true := by
  rw [pyStrip, pyRstrip_eq_nil_iff]
  constructor
  · intro h c hc
    rw [← List.takeWhile_append_dropWhile (p := isPySpace) (l := l)] at hc
    rcases List.mem_append.mp hc with h1 | h1
    · exact mem_takeWhile_is_p h1
    · exact h c h1
  · intro h c hc
    exact h c (mem_of_mem_dropWhile hc)

/-! ## Lemmas: list bookkeeping -/

theorem take_append_add (a b : List α) (n : Nat) :
    (a ++ b).take (a.length + n) = a ++ b.take n := by
  induction a with
  | nil => simp
  | cons x t ih => simp [List.take_succ_cons, Nat.succ_add, ih]

theorem drop_append_add (a b : List α) (n : Nat) :
    (a ++ b).drop (a.length + n) = b.drop n := by
  induction a with
  | nil => simp
  | cons x t ih => simp only [List.cons_append, List.length_cons, Nat.succ_add, List.drop_succ_cons]; exact ih

theorem getD_append_len (a : List α) (x : α) (b : List α) (d : α) :
    (a ++ x :: b).getD a.length d = x := by
  induction a with
  | nil => rfl
  | cons y t ih => simp only [List.cons_append, List.length_cons]; exact ih

theorem dropWhile_eq_self_of_all {p : α → Bool} {l : List α}
    (h : ∀ x ∈ l, p x = false) : l.dropWhile p = l := by
  cases l with
  | nil => rfl
  | cons a t =>
    rw [List.dropWhile_cons, if_neg]
    simp [h a (by simp)]

/-! ## Lemmas: headings -/

theorem takeWhile_pos_shape {p : α → Bool} {l : List α}
    (h : 0 < (l.takeWhile p).length) : ∃ c r, l = c :: r ∧ p c = true := by
  cases l with
  | nil => simp at h
  | cons a t =>
    rw [List.takeWhile_cons] at h
    by_cases hp : p a
    · exact ⟨a, t, rfl, hp⟩
    · rw [if_neg hp] at h; simp at h

theorem genericHeading_of_headingMatch {name line : List Char}
    (h : headingMatch name line = true) : genericHeading line = true := by
  rw [headingMatch] at h
  rw [genericHeading]
  rcases hdw : line.dropWhile isPySpace with _ | ⟨c1, _ | ⟨c2, rest⟩⟩ <;>
    rw [hdw] at h
  · simp at h
  · simp at h
  · simp only [Bool.and_eq_true, List.any_eq_true] at h
    obtain ⟨⟨h1, h2⟩, k0, hk0, -⟩ := h
    have hm : 0 < (rest.takeWhile isPySpace).length := by
      rcases List.mem_range.mp hk0 with h
      omega
    obtain ⟨c3, r, hrest, hc3⟩ := takeWhile_pos_shape hm
    subst hrest
    simp [h1, h2, hc3]

theorem headingMatch_false_of_not_generic {name line : List Char}
    (h : genericHeading line = false) : headingMatch name line = false := by
  cases hh : headingMatch name line
  · rfl
  · rw [genericHeading_of_headingMatch hh] at h
    cases h

/-- headingMatch depends on the name only through its lowercase image. -/
theorem headingMatch_toLower_congr {n1 n2 : List Char}
    (h : n1.map Char.toLower = n2.map Char.toLower) :
    headingMatch n1 = headingMatch n2 := by
  funext line
  have hlen : n1.length = n2.length := by
    have := congrArg List.length h
    simpa using this
  simp only [headingMatch, hlen, h]

theorem pyRstrip_append (l : List Char) :
    ∃ w, l = pyRstrip l ++ w ∧ ∀ c ∈ w, isPySpace c = true := by
  refine ⟨(l.reverse.takeWhile isPySpace).reverse, ?_, ?_⟩
  · conv_lhs => rw [← List.reverse_reverse l,
      ← List.takeWhile_append_dropWhile (p := isPySpace) (l := l.reverse)]
    rw [List.reverse_append, pyRstrip]
  · intro c hc
    exact mem_takeWhile_is_p (List.mem_reverse.mp hc)

theorem genericHeading_false_of_strip_star {star : List Char}
    (hstar : pyStrip star = ['*']) : genericHeading star = false := by
  rw [genericHeading]
  obtain ⟨w, hw, -⟩ := pyRstrip_append (pyLstrip star)
  rw [pyStrip] at hstar
  rw [hstar] at hw
  rw [show pyLstrip star = star.dropWhile isPySpace from rfl] at hw
  rw [hw]
  cases w with
  | nil => rfl
  | cons w0 wr => cases wr <;> simp

theorem dropBlankEnd_cons_of_nonblank {x : List Char} {L : List (List Char)}
    (hx : isBlankLine x = false) :
    dropBlankEnd (x :: L) = x :: dropBlankEnd L := by
  rw [dropBlankEnd, dropBlankEnd, List.reverse_cons, List.dropWhile_append]
  by_cases h : L.reverse.dropWhile isBlankLine = []
  · simp [h, hx]
  · simp [h]

/-! ## C9: full-document sync bypass -/

/-- C9 (confirmed): with the reserved sentinel FULL_DOCUMENT_SYNC as section
name, the orchestrated patch operation returns normalize_markdown of the
replacement body as the entire new document, independent of the prior
document. -/
theorem C9_full_document_sync (doc body : List Char) :
    apply_external_patch doc "FULL_DOCUMENT_SYNC".data body
      = some (normalize_markdown body) := by
  rw [apply_external_patch, if_neg (by decide), if_pos (by decide)]

/-! ## C5: append-on-missing -/

/-- C5 (confirmed): when no line of the document matches the '## name'
heading, apply_patch_to_section returns the original lines verbatim,
followed by a blank separator line exactly when the last line is non-blank
(an empty document's single line is blank), then the synthesized heading,
one blank line, and the lines of the new body. -/
theorem C5_append_on_missing (doc name newc : List Char)
    (h : ∀ l ∈ splitNl doc, headingMatch name l = false) :
    apply_patch_to_section doc name newc =
      joinNl (splitNl doc ++
        (if pyStrip ((splitNl doc).getLast (splitNl_ne_nil doc)) = [] then []
          else [[]]) ++
        [['#', '#', ' '] ++ name] ++ [[]] ++ splitNl newc) := by
  have hnone : firstMatch (headingMatch name) (splitNl doc) = none :=
    (firstMatch_eq_none_iff _ _).mpr h
  simp only [apply_patch_to_section, hnone]
  rw [List.getLast?_eq_getLast _ (splitNl_ne_nil doc)]

theorem C5_witness :
    apply_patch_to_section "A\nB".data "NewSection".data "X".data
      = "A\nB\n\n## NewSection\n\nX".data := by
  rw [C5_append_on_missing "A\nB".data "NewSection".data "X".data (by decide)]
  decide

/-! ## C6: extract_section totality, case-insensitivity, literal names -/

/-- C6 (confirmed): extract_section is total and literal: lookup is
case-insensitive ("characters" and "Characters" extract identically for
every document); a document with no matching heading line yields the empty
string rather than an error; and a name with pattern-special characters
such as "C++ Notes" is compared literally ("C+ Notes" does not match the
unrelated heading "## CC Notes", while "C++ Notes" matches its own). -/
theorem C6_extract_total_literal :
    (∀ doc, extract_section doc "characters".data
        = extract_section doc "Characters".data) ∧
    (∀ doc name, (∀ l ∈ splitNl doc, headingMatch name l = false) →
        extract_section doc name = []) ∧
    extract_section "## CC Notes\nX".data "C+ Notes".data = [] ∧
    extract_section "## C++ Notes\nBody".data "C++ Notes".data = "Body".data := by
  refine ⟨fun doc => ?_, fun doc name h => ?_, by decide, by decide⟩
  · rw [extract_section, extract_section,
      @headingMatch_toLower_congr "characters".data "Characters".data
        (by decide)]
  · rw [extract_section, (firstMatch_eq_none_iff _ _).mpr h]

theorem C6_witness :
    extract_section "# P\n\n## Setting\n\nOld\n\n## Characters\n\nKane\n".data
        "characters".data
      = extract_section "# P\n\n## Setting\n\nOld\n\n## Characters\n\nKane\n".data
        "Characters".data ∧
    extract_section "no headings here".data "Setting".data = [] :=
  ⟨C6_extract_total_literal.1 _,
    C6_extract_total_literal.2.1 _ "Setting".data (by decide)⟩

/-! ## C10: extract_section deletes a leading standalone asterisk -/

/-- C10 (confirmed): for a section whose stored body starts with a
standalone-asterisk line, extract_section returns the remaining body (with
the blank-line trimming extraction always performs), i.e. the asterisk line
and the blank lines after it are deleted; extraction is not the verbatim
text between headings. -/
theorem C10_extract_strips_leading_asterisk
    (name star : List Char) (B1 : List (List Char))
    (hmatch : headingMatch name (['#', '#', ' '] ++ name) = true)
    (hnl : '\n' ∉ name)
    (hstar : pyStrip star = ['*'])
    (hstarnl : '\n' ∉ star)
    (hB1 : ∀ l ∈ B1, '\n' ∉ l ∧ genericHeading l = false) :
    extract_section (joinNl ((['#', '#', ' '] ++ name) :: star :: B1)) name
      = joinNl ((dropBlankEnd B1).dropWhile isBlankLine) := by
  have hhdrnl : '\n' ∉ ['#', '#', ' '] ++ name := by
    intro hm
    rcases List.mem_append.mp hm with hm | hm
    · simp at hm
    · exact hnl hm
  have hsplit : splitNl (joinNl ((['#', '#', ' '] ++ name) :: star :: B1))
      = (['#', '#', ' '] ++ name) :: star :: B1 := by
    apply splitNl_joinNl _ (by simp)
    intro x hx
    rcases List.mem_cons.mp hx with hx | hx
    · subst hx; exact hhdrnl
    rcases List.mem_cons.mp hx with hx | hx
    · subst hx; exact hstarnl
    · exact (hB1 x hx).1
  have hfm : firstMatch (headingMatch name)
      ((['#', '#', ' '] ++ name) :: star :: B1) = some 0 := by
    rw [firstMatch, if_pos hmatch]
  have hstarblank : isBlankLine star = false := by
    rw [isBlankLine, hstar]; rfl
  have hfg : firstMatch genericHeading (star :: B1) = none := by
    apply (firstMatch_eq_none_iff _ _).mpr
    intro x hx
    rcases List.mem_cons.mp hx with hx | hx
    · subst hx; exact genericHeading_false_of_strip_star hstar
    · exact (hB1 x hx).2
  rw [extract_section, hsplit, hfm]
  simp only [List.drop_succ_cons, List.drop_zero, bodyLen, hfg, Option.getD_none,
    List.take_length]
  rw [bodyCleanup]
  simp only [List.dropWhile_cons, hstarblank, Bool.false_eq_true, if_false,
    dropBlankEnd_cons_of_nonblank hstarblank]
  rw [if_pos hstar]

theorem C10_witness :
    extract_section "## Setting\n * \n\nx\n".data "Setting".data = "x".data := by
  have h := C10_extract_strips_leading_asterisk "Setting".data " * ".data
    [[], ['x'], []] (by decide) (by decide) (by decide) (by decide) (by decide)
  rw [show ("## Setting\n * \n\nx\n".data)
      = joinNl ((['#', '#', ' '] ++ "Setting".data) :: " * ".data :: [[], ['x'], []])
    from by decide] at *
  rw [h]
  decide

/-! ## C4: round-trip section replace -/

theorem plainLine_no_nl {l : List Char} (h : plainLine l = true) : '\n' ∉ l := by
  rw [plainLine] at h
  simp only [Bool.and_eq_true, List.all_eq_true] at h
  intro hm
  have := h.1.1.1 '\n' hm
  simp at this

theorem plainLine_not_blank {l : List Char} (h : plainLine l = true) :
    isBlankLine l = false := by
  rw [plainLine] at h
  simp only [Bool.and_eq_true] at h
  simpa using h.1.1.2

theorem plainLine_not_generic {l : List Char} (h : plainLine l = true) :
    genericHeading l = false := by
  rw [plainLine] at h
  simp only [Bool.and_eq_true] at h
  simpa using h.1.2

theorem plainLine_not_star {l : List Char} (h : plainLine l = true) :
    ¬ pyStrip l = ['*'] := by
  rw [plainLine] at h
  simp only [Bool.and_eq_true] at h
  simpa using h.2

theorem extract_section_some {md name : List Char} {i : Nat}
    (h : firstMatch (headingMatch name) (splitNl md) = some i) :
    extract_section md name
      = joinNl (bodyCleanup
          (((splitNl md).drop (i + 1)).take
            (bodyLen ((splitNl md).drop (i + 1))))) := by
  rw [extract_section, h]

theorem extract_section_none {md name : List Char}
    (h : firstMatch (headingMatch name) (splitNl md) = none) :
    extract_section md name = [] := by
  rw [extract_section, h]

theorem mem_of_mem_take {l : List α} {n : Nat} {x : α} (h : x ∈ l.take n) :
    x ∈ l := by
  rw [← List.take_append_drop n l]
  exact List.mem_append_left _ h

theorem mem_of_mem_drop {l : List α} {n : Nat} {x : α} (h : x ∈ l.drop n) :
    x ∈ l := by
  rw [← List.take_append_drop n l]
  exact List.mem_append_right _ h

theorem bodyCleanup_eq_of_plain {L : List (List Char)}
    (h : ∀ l ∈ L, plainLine l = true) : bodyCleanup L = L := by
  have h1 : L.dropWhile isBlankLine = L :=
    dropWhile_eq_self_of_all (fun x hx => plainLine_not_blank (h x hx))
  have h2 : dropBlankEnd L = L := by
    rw [dropBlankEnd,
      dropWhile_eq_self_of_all
        (fun x hx => plainLine_not_blank (h x (List.mem_reverse.mp hx))),
      List.reverse_reverse]
  rw [bodyCleanup, h1, h2]
  cases L with
  | nil => rfl
  | cons b0 B' =>
    have hstar := plainLine_not_star (h b0 (by simp))
    simp [hstar]

/-- C4 (confirmed): replacing the existing section at heading index i with a
non-empty body of plain text lines yields exactly prefix ++ body ++ suffix;
extracting the patched section returns the new body verbatim; and every
section whose name does not match the patched heading line extracts
unchanged. -/
theorem C4_roundtrip_section_replace
    (doc name : List Char) (i : Nat) (Bl : List (List Char))
    (hi : firstMatch (headingMatch name) (splitNl doc) = some i)
    (hBl : ∀ l ∈ Bl, plainLine l = true) (hBne : Bl ≠ []) :
    splitNl (apply_patch_to_section doc name (joinNl Bl))
        = (splitNl doc).take (i + 1) ++ Bl ++
          ((splitNl doc).drop (i + 1)).drop (bodyLen ((splitNl doc).drop (i + 1))) ∧
    extract_section (apply_patch_to_section doc name (joinNl Bl)) name
        = joinNl Bl ∧
    ∀ tn, headingMatch tn ((splitNl doc).getD i []) = false →
      extract_section (apply_patch_to_section doc name (joinNl Bl)) tn
        = extract_section doc tn := by
  obtain ⟨A, hline, C, hL, hAlen, hhl, hAfail⟩ :=
    (firstMatch_eq_some_iff _ _ _).mp hi
  have hBnl : ∀ x ∈ Bl, '\n' ∉ x := fun x hx => plainLine_no_nl (hBl x hx)
  have hBjoin : splitNl (joinNl Bl) = Bl := splitNl_joinNl Bl hBne hBnl
  have hBstrip : ¬ pyStrip (joinNl Bl) = [] := by
    cases hBlc : Bl with
    | nil => exact absurd hBlc hBne
    | cons b0 B' =>
      have hb0 : isBlankLine b0 = false :=
        plainLine_not_blank (hBl b0 (by rw [hBlc]; simp))
      rw [isBlankLine] at hb0
      have hb0' : ¬ pyStrip b0 = [] := by simpa using hb0
      have hex : ¬ (∀ c ∈ b0, isPySpace c = true) := by
        intro hall
        exact hb0' ((pyStrip_eq_nil_iff b0).mpr hall)
      push_neg at hex
      obtain ⟨c, hcb, hcw⟩ := hex
      intro hstrip
      have := (pyStrip_eq_nil_iff _).mp hstrip c
        (mem_joinNl (by simp) hcb)
      exact hcw this
  have htake : (splitNl doc).take (i + 1) = A ++ [hline] := by
    rw [hL, ← hAlen]
    have := take_append_add A (hline :: C) 1
    simpa using this
  have hdrop : (splitNl doc).drop (i + 1) = C := by
    rw [hL, ← hAlen]
    simp
  have happly : apply_patch_to_section doc name (joinNl Bl)
      = joinNl (A ++ hline :: (Bl ++ C.drop (bodyLen C))) := by
    simp only [apply_patch_to_section, hi, hdrop]
    rw [if_neg hBstrip, hBjoin, htake]
    congr 1
    simp
  have hmemL : ∀ x ∈ A ++ hline :: (Bl ++ C.drop (bodyLen C)), '\n' ∉ x := by
    intro x hx
    have hnlL := no_nl_of_mem_splitNl doc
    rcases List.mem_append.mp hx with hx | hx
    · exact hnlL x (by rw [hL]; exact List.mem_append_left _ hx)
    rcases List.mem_cons.mp hx with hx | hx
    · rw [hx]
      exact hnlL hline (by rw [hL]; simp)
    rcases List.mem_append.mp hx with hx | hx
    · exact hBnl x hx
    · refine hnlL x ?_
      rw [hL]
      exact List.mem_append_right _
        (List.mem_cons_of_mem _ (mem_of_mem_drop hx))
  have hsplitRes : splitNl (apply_patch_to_section doc name (joinNl Bl))
      = A ++ hline :: (Bl ++ C.drop (bodyLen C)) := by
    rw [happly]
    exact splitNl_joinNl _ (by simp) hmemL
  refine ⟨?_, ?_, ?_⟩
  · rw [hsplitRes, htake, hdrop]
    simp
  · -- extracting the patched section returns the new body
    have hfm2 : firstMatch (headingMatch name)
        (A ++ hline :: (Bl ++ C.drop (bodyLen C))) = some i :=
      (firstMatch_eq_some_iff _ _ _).mpr
        ⟨A, hline, Bl ++ C.drop (bodyLen C), rfl, hAlen, hhl, hAfail⟩
    have hd2 : (A ++ hline :: (Bl ++ C.drop (bodyLen C))).drop (i + 1)
        = Bl ++ C.drop (bodyLen C) := by
      rw [← hAlen]
      simp
    have hBgen : firstMatch genericHeading Bl = none :=
      (firstMatch_eq_none_iff _ _).mpr
        (fun x hx => plainLine_not_generic (hBl x hx))
    have hblen : bodyLen (Bl ++ C.drop (bodyLen C)) = Bl.length := by
      rw [bodyLen, firstMatch_append_of_none hBgen]
      cases hCg : firstMatch genericHeading C with
      | none =>
        have hzero : C.drop (bodyLen C) = [] := by
          rw [bodyLen, hCg]
          simp
        rw [hzero]
        simp [firstMatch]
      | some k =>
        obtain ⟨P, g, Q, hCeq, hPlen, hg, hPfail⟩ :=
          (firstMatch_eq_some_iff _ _ _).mp hCg
        have hSgQ : C.drop (bodyLen C) = g :: Q := by
          rw [bodyLen, hCg, Option.getD_some, hCeq, ← hPlen]
          simp
        rw [hSgQ]
        rw [show firstMatch genericHeading (g :: Q) = some 0 from by
          rw [firstMatch, if_pos hg]]
        simp
    have hfm2' : firstMatch (headingMatch name)
        (splitNl (apply_patch_to_section doc name (joinNl Bl))) = some i := by
      rw [hsplitRes]; exact hfm2
    rw [extract_section_some hfm2', hsplitRes, hd2, hblen, List.take_left,
      bodyCleanup_eq_of_plain hBl]
  · -- other sections are unchanged
    intro tn htn
    have hgetD : (splitNl doc).getD i [] = hline := by
      rw [hL, ← hAlen]
      exact getD_append_len A hline C []
    rw [hgetD] at htn
    have hlineg : genericHeading hline = true := genericHeading_of_headingMatch hhl
    cases hA : firstMatch (headingMatch tn) A with
    | some j =>
      obtain ⟨A1, y, A2, hAeq, hA1len, hy, hA1fail⟩ :=
        (firstMatch_eq_some_iff _ _ _).mp hA
      have hdoc : firstMatch (headingMatch tn) (splitNl doc) = some j := by
        rw [hL, hAeq]
        exact (firstMatch_eq_some_iff _ _ _).mpr
          ⟨A1, y, A2 ++ hline :: C, by simp, hA1len, hy, hA1fail⟩
      have hres : firstMatch (headingMatch tn)
          (A ++ hline :: (Bl ++ C.drop (bodyLen C))) = some j := by
        rw [hAeq]
        exact (firstMatch_eq_some_iff _ _ _).mpr
          ⟨A1, y, A2 ++ hline :: (Bl ++ C.drop (bodyLen C)), by simp,
            hA1len, hy, hA1fail⟩
      have hdropdoc : (splitNl doc).drop (j + 1) = A2 ++ hline :: C := by
        rw [hL, hAeq, ← hA1len]
        simp
      have hdropres : (A ++ hline :: (Bl ++ C.drop (bodyLen C))).drop (j + 1)
          = A2 ++ hline :: (Bl ++ C.drop (bodyLen C)) := by
        rw [hAeq, ← hA1len]
        simp
      have hres' : firstMatch (headingMatch tn)
          (splitNl (apply_patch_to_section doc name (joinNl Bl))) = some j := by
        rw [hsplitRes]; exact hres
      rw [extract_section_some hdoc, extract_section_some hres', hsplitRes,
        hdropdoc, hdropres]
      cases hA2 : firstMatch genericHeading A2 with
      | some k =>
        obtain ⟨P, g, Q, hA2eq, hPlen, hg, hPfail⟩ :=
          (firstMatch_eq_some_iff _ _ _).mp hA2
        have hb1 : bodyLen (A2 ++ hline :: C) = k := by
          rw [bodyLen, firstMatch_append_of_some hA2, Option.getD_some]
        have hb2 : bodyLen (A2 ++ hline :: (Bl ++ C.drop (bodyLen C))) = k := by
          rw [bodyLen, firstMatch_append_of_some hA2, Option.getD_some]
        rw [hb1, hb2, hA2eq, ← hPlen]
        rw [show (P ++ g :: Q) ++ hline :: C = P ++ (g :: (Q ++ hline :: C))
          from by simp]
        rw [show (P ++ g :: Q) ++ hline :: (Bl ++ C.drop (bodyLen C))
            = P ++ (g :: (Q ++ hline :: (Bl ++ C.drop (bodyLen C))))
          from by simp]
        rw [List.take_left, List.take_left]
      | none =>
        have hb1 : bodyLen (A2 ++ hline :: C) = A2.length := by
          rw [bodyLen, firstMatch_append_of_none hA2]
          rw [show firstMatch genericHeading (hline :: C) = some 0 from by
            rw [firstMatch, if_pos hlineg]]
          simp
        have hb2 : bodyLen (A2 ++ hline :: (Bl ++ C.drop (bodyLen C)))
            = A2.length := by
          rw [bodyLen, firstMatch_append_of_none hA2]
          rw [show firstMatch genericHeading
              (hline :: (Bl ++ C.drop (bodyLen C))) = some 0 from by
            rw [firstMatch, if_pos hlineg]]
          simp
        rw [hb1, hb2, List.take_left, List.take_left]
    | none =>
      have hAf : ∀ x ∈ A, headingMatch tn x = false :=
        (firstMatch_eq_none_iff _ _).mp hA
      have hDf : ∀ x ∈ C.take (bodyLen C), genericHeading x = false := by
        cases hCg : firstMatch genericHeading C with
        | none =>
          intro x hx
          exact (firstMatch_eq_none_iff _ _).mp hCg x (mem_of_mem_take hx)
        | some k =>
          obtain ⟨P, g, Q, hCeq, hPlen, hg, hPfail⟩ :=
            (firstMatch_eq_some_iff _ _ _).mp hCg
          have htk : C.take (bodyLen C) = P := by
            rw [bodyLen, hCg, Option.getD_some, hCeq, ← hPlen, List.take_left]
          rw [htk]
          exact hPfail
      have hCsplit : C = C.take (bodyLen C) ++ C.drop (bodyLen C) :=
        (List.take_append_drop _ _).symm
      have hpre1 : ∀ x ∈ A ++ hline :: C.take (bodyLen C),
          headingMatch tn x = false := by
        intro x hx
        rcases List.mem_append.mp hx with hx | hx
        · exact hAf x hx
        rcases List.mem_cons.mp hx with hx | hx
        · subst hx; exact htn
        · exact headingMatch_false_of_not_generic (hDf x hx)
      have hpre2 : ∀ x ∈ A ++ hline :: Bl, headingMatch tn x = false := by
        intro x hx
        rcases List.mem_append.mp hx with hx | hx
        · exact hAf x hx
        rcases List.mem_cons.mp hx with hx | hx
        · subst hx; exact htn
        · exact headingMatch_false_of_not_generic
            (plainLine_not_generic (hBl x hx))
      have hdoc : firstMatch (headingMatch tn) (splitNl doc)
          = (firstMatch (headingMatch tn) (C.drop (bodyLen C))).map
              (· + (A ++ hline :: C.take (bodyLen C)).length) := by
        conv_lhs => rw [hL, hCsplit]
        rw [show A ++ hline :: (C.take (bodyLen C) ++ C.drop (bodyLen C))
            = (A ++ hline :: C.take (bodyLen C)) ++ C.drop (bodyLen C)
          from by simp]
        exact firstMatch_append_of_none
          ((firstMatch_eq_none_iff _ _).mpr hpre1) _
      have hres : firstMatch (headingMatch tn)
          (A ++ hline :: (Bl ++ C.drop (bodyLen C)))
          = (firstMatch (headingMatch tn) (C.drop (bodyLen C))).map
              (· + (A ++ hline :: Bl).length) := by
        rw [show A ++ hline :: (Bl ++ C.drop (bodyLen C))
            = (A ++ hline :: Bl) ++ C.drop (bodyLen C) from by simp]
        exact firstMatch_append_of_none
          ((firstMatch_eq_none_iff _ _).mpr hpre2) _
      cases hSm : firstMatch (headingMatch tn) (C.drop (bodyLen C)) with
      | none =>
        have hdocn : firstMatch (headingMatch tn) (splitNl doc) = none := by
          rw [hdoc, hSm]; rfl
        have hresn : firstMatch (headingMatch tn)
            (splitNl (apply_patch_to_section doc name (joinNl Bl))) = none := by
          rw [hsplitRes, hres, hSm]; rfl
        rw [extract_section_none hdocn, extract_section_none hresn]
      | some q =>
        have hdoc2 : firstMatch (headingMatch tn) (splitNl doc)
            = some (q + (A ++ hline :: C.take (bodyLen C)).length) := by
          rw [hdoc, hSm]; rfl
        have hres2 : firstMatch (headingMatch tn)
            (splitNl (apply_patch_to_section doc name (joinNl Bl)))
            = some (q + (A ++ hline :: Bl).length) := by
          rw [hsplitRes, hres, hSm]; rfl
        have hL2 : splitNl doc
            = (A ++ hline :: C.take (bodyLen C)) ++ C.drop (bodyLen C) := by
          rw [hL]
          conv_lhs => rw [hCsplit]
          simp
        have hu1 : (splitNl doc).drop
            (q + (A ++ hline :: C.take (bodyLen C)).length + 1)
            = (C.drop (bodyLen C)).drop (q + 1) := by
          rw [hL2, show q + (A ++ hline :: C.take (bodyLen C)).length + 1
              = (A ++ hline :: C.take (bodyLen C)).length + (q + 1)
            from by omega]
          exact drop_append_add _ _ _
        have hu2 : (A ++ hline :: (Bl ++ C.drop (bodyLen C))).drop
            (q + (A ++ hline :: Bl).length + 1)
            = (C.drop (bodyLen C)).drop (q + 1) := by
          rw [show A ++ hline :: (Bl ++ C.drop (bodyLen C))
              = (A ++ hline :: Bl) ++ C.drop (bodyLen C) from by simp]
          rw [show q + (A ++ hline :: Bl).length + 1
              = (A ++ hline :: Bl).length + (q + 1) from by omega]
          exact drop_append_add _ _ _
        rw [extract_section_some hdoc2, extract_section_some hres2, hsplitRes,
          hu1, hu2]

theorem C4_witness :
    splitNl (apply_patch_to_section
        "# P\n\n## Setting\n\nOld\n\n## Characters\n\nKane\n".data
        "Setting".data "New Place".data)
      = ["# P".data, [], "## Setting".data, "New Place".data,
          "## Characters".data, [], "Kane".data, []] ∧
    extract_section (apply_patch_to_section
        "# P\n\n## Setting\n\nOld\n\n## Characters\n\nKane\n".data
        "Setting".data "New Place".data) "Setting".data = "New Place".data ∧
    extract_section (apply_patch_to_section
        "# P\n\n## Setting\n\nOld\n\n## Characters\n\nKane\n".data
        "Setting".data "New Place".data) "Characters".data
      = extract_section "# P\n\n## Setting\n\nOld\n\n## Characters\n\nKane\n".data
          "Characters".data := by
  have h := C4_roundtrip_section_replace
    "# P\n\n## Setting\n\nOld\n\n## Characters\n\nKane\n".data
    "Setting".data 2 ["New Place".data] (by decide) (by decide) (by decide)
  rw [show ("New Place".data : List Char) = joinNl ["New Place".data] from rfl]
  refine ⟨?_, ?_, ?_⟩
  · rw [h.1]; decide
  · rw [h.2.1]
  · exact h.2.2 "Characters".data (by decide)

/-! ## C3: HTML purge -/

theorem scanRepl_mem {pats : List (List Char × List Char)} :
    ∀ (n : Nat) (l : List Char), ∀ d ∈ scanRepl pats n l,
      d ∈ l ∨ ∃ pr ∈ pats, d ∈ pr.2 := by
  intro n
  induction n with
  | zero => intro l d hd; exact Or.inl hd
  | succ n ih =>
    intro l d hd
    cases l with
    | nil => simp [scanRepl] at hd
    | cons c rest =>
      rw [scanRepl] at hd
      cases hf : pats.find? (fun pr => pr.1.isPrefixOf (c :: rest)) with
      | some pr =>
        rw [hf] at hd
        rcases List.mem_append.mp hd with hd | hd
        · exact Or.inr ⟨pr, List.mem_of_find?_eq_some hf, hd⟩
        · rcases ih _ d hd with hd | hd
          · exact Or.inl (mem_of_mem_drop hd)
          · exact Or.inr hd
      | none =>
        rw [hf] at hd
        rcases List.mem_cons.mp hd with hd | hd
        · exact Or.inl (hd ▸ List.mem_cons_self c rest)
        · rcases ih _ d hd with hd | hd
          · exact Or.inl (List.mem_cons_of_mem c hd)
          · exact Or.inr hd

theorem scanRepl_id {pats : List (List Char × List Char)} :
    ∀ (n : Nat) (l : List Char),
      (∀ pr ∈ pats, ∃ ch, ch ∈ pr.1 ∧ ch ∉ l) → scanRepl pats n l = l := by
  intro n
  induction n with
  | zero => intro l _; rfl
  | succ n ih =>
    intro l h
    cases l with
    | nil => rfl
    | cons c rest =>
      rw [scanRepl]
      have hf : pats.find? (fun pr => pr.1.isPrefixOf (c :: rest)) = none := by
        rw [List.find?_eq_none]
        intro pr hpr
        obtain ⟨ch, hchp, hchl⟩ := h pr hpr
        intro hpref
        exact hchl (((List.isPrefixOf_iff_prefix).mp hpref).subset hchp)
      rw [hf, ih rest (fun pr hpr => ?_)]
      obtain ⟨ch, hchp, hchl⟩ := h pr hpr
      exact ⟨ch, hchp, fun hm => hchl (List.mem_cons_of_mem c hm)⟩

theorem runScan_mem {pats : List (List Char × List Char)} {l : List Char}
    {d : Char} (hd : d ∈ runScan pats l) : d ∈ l ∨ ∃ pr ∈ pats, d ∈ pr.2 :=
  scanRepl_mem _ l d hd

theorem runScan_id {pats : List (List Char × List Char)} {l : List Char}
    (h : ∀ pr ∈ pats, ∃ ch, ch ∈ pr.1 ∧ ch ∉ l) : runScan pats l = l :=
  scanRepl_id _ l h

theorem subLiOpenF_mem :
    ∀ (n : Nat) (l : List Char), ∀ d ∈ subLiOpenF n l,
      d ∈ l ∨ d = '*' ∨ d = ' ' := by
  intro n
  induction n with
  | zero => intro l d hd; exact Or.inl hd
  | succ n ih =>
    intro l d hd
    cases l with
    | nil => simp [subLiOpenF] at hd
    | cons c rest =>
      rw [subLiOpenF] at hd
      by_cases hp : "<li".data.isPrefixOf (c :: rest)
      · rw [if_pos hp] at hd
        cases hm : ((c :: rest).drop 3).dropWhile (fun d => !(d == '>')) with
        | cons g after =>
          rw [hm] at hd
          rcases List.mem_cons.mp hd with hd | hd
          · exact Or.inr (Or.inl hd)
          rcases List.mem_cons.mp hd with hd | hd
          · exact Or.inr (Or.inr hd)
          · rcases ih _ d hd with hd | hd
            · refine Or.inl ?_
              have h1 : d ∈ ((c :: rest).drop 3).dropWhile (fun d => !(d == '>')) := by
                rw [hm]; exact List.mem_cons_of_mem g hd
              exact mem_of_mem_drop (mem_of_mem_dropWhile h1)
            · exact Or.inr hd
        | nil =>
          rw [hm] at hd
          rcases List.mem_cons.mp hd with hd | hd
          · exact Or.inl (hd ▸ List.mem_cons_self c rest)
          · rcases ih _ d hd with hd | hd
            · exact Or.inl (List.mem_cons_of_mem c hd)
            · exact Or.inr hd
      · rw [if_neg hp] at hd
        rcases List.mem_cons.mp hd with hd | hd
        · exact Or.inl (hd ▸ List.mem_cons_self c rest)
        · rcases ih _ d hd with hd | hd
          · exact Or.inl (List.mem_cons_of_mem c hd)
          · exact Or.inr hd

theorem removeTagsF_mem :
    ∀ (n : Nat) (l : List Char), ∀ d ∈ removeTagsF n l, d ∈ l := by
  intro n
  induction n with
  | zero => intro l d hd; exact hd
  | succ n ih =>
    intro l d hd
    cases l with
    | nil => simp [removeTagsF] at hd
    | cons c rest =>
      rw [removeTagsF] at hd
      by_cases hc : (c == '<') = true
      · rw [if_pos hc] at hd
        cases hm : rest.dropWhile (fun d => !(d == '>')) with
        | cons g after =>
          rw [hm] at hd
          have h1 : d ∈ rest.dropWhile (fun d => !(d == '>')) := by
            rw [hm]; exact List.mem_cons_of_mem g (ih _ d hd)
          exact List.mem_cons_of_mem c (mem_of_mem_dropWhile h1)
        | nil =>
          rw [hm] at hd
          rcases List.mem_cons.mp hd with hd | hd
          · exact hd ▸ List.mem_cons_self c rest
          · exact List.mem_cons_of_mem c (ih _ d hd)
      · rw [if_neg hc] at hd
        rcases List.mem_cons.mp hd with hd | hd
        · exact hd ▸ List.mem_cons_self c rest
        · exact List.mem_cons_of_mem c (ih _ d hd)

theorem length_dropWhile_le (p : α → Bool) (l : List α) :
    (l.dropWhile p).length ≤ l.length := by
  induction l with
  | nil => simp
  | cons a t ih =>
    rw [List.dropWhile_cons]
    by_cases hp : p a
    · rw [if_pos hp]
      exact Nat.le_succ_of_le ih
    · rw [if_neg hp]

theorem hasTagPattern_cons {c : Char} {X : List Char}
    (h : hasTagPattern (c :: X)) (hc : c ≠ '<') : hasTagPattern X := by
  obtain ⟨a, b, d, habd⟩ := h
  cases a with
  | nil =>
    exfalso
    apply hc
    have := congrArg (List.head? ·) habd
    simpa using this
  | cons a0 a1 =>
    have ht : X = a1 ++ '<' :: b ++ '>' :: d := by
      have := congrArg List.tail habd
      simpa using this
    exact ⟨a1, b, d, ht⟩

theorem gt_mem_of_hasTagPattern {l : List Char} (h : hasTagPattern l) :
    '>' ∈ l := by
  obtain ⟨a, b, c, habc⟩ := h
  rw [habc]
  exact List.mem_append_right _ (List.mem_cons_self _ _)

theorem removeTagsF_no_tag :
    ∀ (n : Nat) (l : List Char), l.length ≤ n →
      ¬ hasTagPattern (removeTagsF n l) := by
  intro n
  induction n with
  | zero =>
    intro l hl
    rw [List.length_eq_zero.mp (Nat.le_zero.mp hl)]
    rintro ⟨a, b, c, habc⟩
    exact absurd habc (by simp [removeTagsF])
  | succ n ih =>
    intro l hl
    cases l with
    | nil =>
      rintro ⟨a, b, c, habc⟩
      exact absurd habc (by simp [removeTagsF])
    | cons c0 rest =>
      rw [removeTagsF]
      by_cases hc : (c0 == '<') = true
      · rw [if_pos hc]
        cases hm : rest.dropWhile (fun d => !(d == '>')) with
        | cons g after =>
          apply ih
          have h1 : after.length ≤ (rest.dropWhile (fun d => !(d == '>'))).length := by
            rw [hm]; simp
          have h2 : (rest.dropWhile (fun d => !(d == '>'))).length ≤ rest.length :=
            length_dropWhile_le _ _
          have h3 : rest.length + 1 ≤ n + 1 := by simpa using hl
          omega
        | nil =>
          have hnog : ∀ d ∈ rest, d ≠ '>' := by
            intro d hd
            have := List.dropWhile_eq_nil_iff.mp hm d hd
            simpa using this
          intro htag
          have hgt : '>' ∈ c0 :: removeTagsF n rest :=
            gt_mem_of_hasTagPattern htag
          rcases List.mem_cons.mp hgt with h | h
          · rw [← h] at hc; simp at hc
          · exact hnog '>' (removeTagsF_mem n rest '>' h) rfl
      · rw [if_neg hc]
        intro htag
        have hX := hasTagPattern_cons htag (by simpa using hc)
        exact ih rest (by simpa using Nat.le_of_succ_le_succ (by simpa using hl)) hX

theorem amp_mem_of_containsSeq {p l : List Char}
    (h : containsSeq p l) (hp : '&' ∈ p) : '&' ∈ l := by
  obtain ⟨a, b, hab⟩ := h
  rw [hab]
  exact List.mem_append_left _ (List.mem_append_right _ hp)

/-- C3 (corrected): for every input that contains no '&' (no entity
references), clean_html_artifacts leaves no tag-like substring and none of
the six handled entity spellings.  The restriction is forced: entity
decoding runs after tag stripping, so an input that encodes a tag or an
entity through entity references defeats the purge (see the
counterexample). -/
theorem C3_clean_html_purge (x : List Char) (hx : '&' ∉ x) :
    ¬ hasTagPattern (clean_html_artifacts x) ∧
    ∀ ent ∈ ["&lt;".data, "&gt;".data, "&amp;".data, "&quot;".data,
      "&#39;".data, "&nbsp;".data], ¬ containsSeq ent (clean_html_artifacts x) := by
  have key : ∀ y : List Char, '&' ∉ y →
      ¬ hasTagPattern (clean_html_artifacts y) ∧ '&' ∉ clean_html_artifacts y := by
    intro y hy
    rw [clean_html_artifacts]
    by_cases hemp : y.isEmpty
    · rw [if_pos hemp]
      constructor
      · rintro ⟨a, b, c, habc⟩
        exact absurd habc (by simp)
      · simp
    · rw [if_neg hemp]
      have h1 : '&' ∉ subLiPair y := by
        intro hm
        rcases runScan_mem hm with hm | ⟨pr, hpr, hm⟩
        · exact hy hm
        · simp at hpr; rw [hpr] at hm; simp at hm
      have h2 : '&' ∉ subUl (subLiPair y) := by
        intro hm
        rcases runScan_mem hm with hm | ⟨pr, hpr, hm⟩
        · exact h1 hm
        · simp at hpr
          rcases hpr with hpr | hpr <;> rw [hpr] at hm <;> simp at hm
      have h3 : '&' ∉ subOl (subUl (subLiPair y)) := by
        intro hm
        rcases runScan_mem hm with hm | ⟨pr, hpr, hm⟩
        · exact h2 hm
        · simp at hpr
          rcases hpr with hpr | hpr <;> rw [hpr] at hm <;> simp at hm
      have h4 : '&' ∉ subLiOpen (subOl (subUl (subLiPair y))) := by
        intro hm
        rcases subLiOpenF_mem _ _ _ hm with hm | hm | hm
        · exact h3 hm
        · simp at hm
        · simp at hm
      have h5 : '&' ∉ subLiClose (subLiOpen (subOl (subUl (subLiPair y)))) := by
        intro hm
        rcases runScan_mem hm with hm | ⟨pr, hpr, hm⟩
        · exact h4 hm
        · simp at hpr; rw [hpr] at hm; simp at hm
      set z := subLiClose (subLiOpen (subOl (subUl (subLiPair y)))) with hz
      have h6 : '&' ∉ removeTags z := fun hm => h5 (removeTagsF_mem _ _ _ hm)
      have h6t : ¬ hasTagPattern (removeTags z) :=
        removeTagsF_no_tag z.length z (Nat.le_refl _)
      have hid : ∀ (pat rep : List Char), '&' ∈ pat →
          runScan [(pat, rep)] (removeTags z) = removeTags z := by
        intro pat rep hpat
        exact runScan_id (by
          intro pr hpr
          simp at hpr
          rw [hpr]
          exact ⟨'&', hpat, h6⟩)
      rw [show subEntLt (removeTags z) = removeTags z from hid _ _ (by simp),
        show subEntGt (removeTags z) = removeTags z from hid _ _ (by simp),
        show subEntAmp (removeTags z) = removeTags z from hid _ _ (by simp),
        show subEntQuot (removeTags z) = removeTags z from hid _ _ (by simp),
        show subEntApos (removeTags z) = removeTags z from hid _ _ (by simp),
        show subEntNbsp (removeTags z) = removeTags z from hid _ _ (by simp)]
      exact ⟨h6t, h6⟩
  obtain ⟨ht, ha⟩ := key x hx
  refine ⟨ht, ?_⟩
  intro ent hent hseq
  have hamp : '&' ∈ ent := by
    simp only [List.mem_cons] at hent
    rcases hent with h | h | h | h | h | h | h
    all_goals try (rw [h]; decide)
    simp at h
  exact ha (amp_mem_of_containsSeq hseq hamp)

theorem C3_witness :
    ('&' ∉ "<ul><li>a</li></ul> plain".data) ∧
    ¬ hasTagPattern (clean_html_artifacts "<ul><li>a</li></ul> plain".data) :=
  ⟨by decide, (C3_clean_html_purge "<ul><li>a</li></ul> plain".data (by decide)).1⟩

/-- C3 counterexample: the claim fails as stated over all inputs.  The
input "&lt;b&gt;" decodes to the tag-like string "<b>", and "&amp;lt;"
decodes to the literal entity "&lt;". -/
theorem C3_counterexample :
    clean_html_artifacts "&lt;b&gt;".data = "<b>".data ∧
    hasTagPattern "<b>".data ∧
    clean_html_artifacts "&amp;lt;".data = "&lt;".data ∧
    containsSeq "&lt;".data "&lt;".data :=
  ⟨by decide, ⟨[], ['b'], [], by decide⟩, by decide, ⟨[], [], by decide⟩⟩

/-! ## Lemmas: newline triples and regexB -/

theorem hasTriple_cons (c : Char) (rest : List Char) :
    hasTriple (c :: rest)
      = ((c == '\n' && rest.take 2 == ['\n', '\n']) || hasTriple rest) := rfl

theorem hasTriple_tail {c : Char} {rest : List Char}
    (h : hasTriple (c :: rest) = false) : hasTriple rest = false := by
  rw [hasTriple_cons] at h
  exact (Bool.or_eq_false_iff.mp h).2

theorem take_append_le {a b : List α} {n : Nat} (h : n ≤ a.length) :
    (a ++ b).take n = a.take n := by
  induction a generalizing n with
  | nil =>
    have : n = 0 := Nat.le_zero.mp (by simpa using h)
    subst this
    simp
  | cons x t ih =>
    cases n with
    | zero => simp
    | succ m =>
      rw [List.cons_append, List.take_succ_cons, List.take_succ_cons,
        ih (by simpa using h)]

theorem hasTriple_true_append {a : List Char} (b : List Char)
    (h : hasTriple a = true) : hasTriple (a ++ b) = true := by
  induction a with
  | nil => simp [hasTriple] at h
  | cons c t ih =>
    rw [hasTriple_cons] at h
    rw [List.cons_append, hasTriple_cons]
    rcases Bool.or_eq_true_iff.mp h with h | h
    · have h1 := (Bool.and_eq_true _ _).mp h
      have ht2 : t.take 2 = ['\n', '\n'] := by simpa using h1.2
      have hlen : 2 ≤ t.length := by
        have := congrArg List.length ht2
        simp [List.length_take] at this
        omega
      apply Bool.or_eq_true_iff.mpr
      left
      rw [take_append_le hlen, ht2]
      simpa using h1.1
    · apply Bool.or_eq_true_iff.mpr
      right
      exact ih h

theorem hasTriple_true_append_right (a : List Char) {b : List Char}
    (h : hasTriple b = true) : hasTriple (a ++ b) = true := by
  induction a with
  | nil => simpa using h
  | cons c t ih =>
    rw [List.cons_append, hasTriple_cons, ih]
    simp

theorem hasTriple_append_false {a b : List Char}
    (h : hasTriple (a ++ b) = false) :
    hasTriple a = false ∧ hasTriple b = false := by
  constructor
  · cases ha : hasTriple a with
    | false => rfl
    | true => rw [hasTriple_true_append b ha] at h; cases h
  · cases hb : hasTriple b with
    | false => rfl
    | true => rw [hasTriple_true_append_right a hb] at h; cases h

theorem dropWhile_head_not {p : α → Bool} {l : List α} {c : α}
    (h : (l.dropWhile p).head? = some c) : p c = false := by
  induction l with
  | nil => simp at h
  | cons a t ih =>
    rw [List.dropWhile_cons] at h
    by_cases hp : p a
    · rw [if_pos hp] at h; exact ih h
    · rw [if_neg hp] at h
      simp only [List.head?_cons, Option.some.injEq] at h
      rw [← h]
      exact Bool.eq_false_iff.mpr hp

theorem drop_takeWhile_length (p : α → Bool) (l : List α) :
    l.drop (l.takeWhile p).length = l.dropWhile p := by
  induction l with
  | nil => rfl
  | cons a t ih =>
    rw [List.takeWhile_cons, List.dropWhile_cons]
    by_cases hp : p a
    · rw [if_pos hp, if_pos hp]
      simpa using ih
    · rw [if_neg hp, if_neg hp]
      simp

theorem take_eq_replicate_of_takeWhile {l : List Char} {k : Nat}
    (h : k ≤ (l.takeWhile (fun d => d == '\n')).length) :
    l.take k = List.replicate k '\n' := by
  induction l generalizing k with
  | nil =>
    have : k = 0 := Nat.le_zero.mp (by simpa using h)
    subst this
    rfl
  | cons c t ih =>
    rw [List.takeWhile_cons] at h
    by_cases hc : (c == '\n') = true
    · rw [if_pos hc] at h
      cases k with
      | zero => rfl
      | succ m =>
        rw [List.take_succ_cons, List.replicate_succ,
          ih (by simpa using h), show c = '\n' from by simpa using hc]
    · rw [if_neg hc] at h
      have : k = 0 := Nat.le_zero.mp (by simpa using h)
      subst this
      rfl

theorem hasTriple_of_takeWhile_ge {l : List Char}
    (h : 3 ≤ (l.takeWhile (fun d => d == '\n')).length) :
    hasTriple l = true := by
  have h3 : l.take 3 = ['\n', '\n', '\n'] := by
    simpa using take_eq_replicate_of_takeWhile h
  cases l with
  | nil => simp at h3
  | cons c rest =>
    rw [List.take_succ_cons] at h3
    have hc : c = '\n' := (List.cons.injEq _ _ _ _).mp h3 |>.1
    have hr : rest.take 2 = ['\n', '\n'] := (List.cons.injEq _ _ _ _).mp h3 |>.2
    rw [hasTriple_cons]
    apply Bool.or_eq_true_iff.mpr
    left
    simp [hc, hr]

theorem takeWhile_ge_two_of_take {l : List Char}
    (h : l.take 2 = ['\n', '\n']) :
    2 ≤ (l.takeWhile (fun d => d == '\n')).length := by
  cases l with
  | nil => simp at h
  | cons a t =>
    cases t with
    | nil => simp at h
    | cons b t2 =>
      rw [List.take_succ_cons, List.take_succ_cons] at h
      have ha : a = '\n' := by
        have := (List.cons.injEq _ _ _ _).mp h
        exact this.1
      have hb : b = '\n' := by
        have := ((List.cons.injEq _ _ _ _).mp h).2
        exact ((List.cons.injEq _ _ _ _).mp this).1
      rw [List.takeWhile_cons, if_pos (by simp [ha]), List.takeWhile_cons,
        if_pos (by simp [hb])]
      simp

theorem regexBF_head : ∀ (n : Nat) (l : List Char),
    (regexBF n l).head? = l.head? := by
  intro n
  induction n with
  | zero => intro l; rfl
  | succ n ih =>
    intro l
    cases l with
    | nil => rfl
    | cons c rest =>
      rw [regexBF]
      by_cases hc : c = '\n'
      · rw [if_pos hc]
        dsimp only
        split
        · simp [hc]
        · rfl
      · rw [if_neg hc]
        rfl

/-- regexB never leaves three consecutive newlines, and a leading newline
run of length at most two passes through unchanged. -/
theorem regexBF_good : ∀ (n : Nat) (l : List Char), l.length ≤ n →
    hasTriple (regexBF n l) = false ∧
    ((l.takeWhile (fun d => d == '\n')).length ≤ 2 →
      (regexBF n l).takeWhile (fun d => d == '\n')
        = l.takeWhile (fun d => d == '\n')) := by
  intro n
  induction n with
  | zero =>
    intro l hl
    rw [List.length_eq_zero.mp (Nat.le_zero.mp hl)]
    exact ⟨rfl, fun _ => rfl⟩
  | succ n ih =>
    intro l hl
    cases l with
    | nil => exact ⟨rfl, fun _ => rfl⟩
    | cons c rest =>
      have hlr : rest.length ≤ n := by
        simp only [List.length_cons] at hl
        omega
      rw [regexBF]
      by_cases hc : c = '\n'
      · subst hc
        rw [if_pos rfl]
        dsimp only
        by_cases h3 : 3 ≤ (('\n' :: rest).takeWhile (fun d => d == '\n')).length
        · rw [if_pos h3]
          have hdropk : ('\n' :: rest).drop
                (('\n' :: rest).takeWhile (fun d => d == '\n')).length
              = ('\n' :: rest).dropWhile (fun d => d == '\n') :=
            drop_takeWhile_length _ _
          have hlen : (('\n' :: rest).drop
              (('\n' :: rest).takeWhile (fun d => d == '\n')).length).length ≤ n := by
            rw [List.length_drop]
            simp only [List.length_cons]
            omega
          have hX := ih _ hlen
          have hXhead : ∀ d,
              (regexBF n (('\n' :: rest).drop
                (('\n' :: rest).takeWhile (fun d => d == '\n')).length)).head?
                = some d → (d == '\n') = false := by
            intro d hd
            rw [regexBF_head, hdropk] at hd
            exact dropWhile_head_not (p := fun d => d == '\n') hd
          refine ⟨?_, fun hle => absurd hle (by omega)⟩
          rw [hasTriple_cons, hasTriple_cons]
          cases hXc : regexBF n (('\n' :: rest).drop
              (('\n' :: rest).takeWhile (fun d => d == '\n')).length) with
          | nil => simp [hasTriple]
          | cons x0 X' =>
            have hx0 : (x0 == '\n') = false := hXhead x0 (by rw [hXc]; rfl)
            have hXt : hasTriple (x0 :: X') = false := by rw [← hXc]; exact hX.1
            rw [List.take_succ_cons]
            simp only [List.take_succ_cons, hasTriple_cons]
            simp [hx0, hXt, hasTriple_tail hXt]
        · rw [if_neg h3]
          have hrest := ih rest hlr
          have hkform : (('\n' :: rest).takeWhile (fun d => d == '\n')).length
              = (rest.takeWhile (fun d => d == '\n')).length + 1 := by
            rw [List.takeWhile_cons, if_pos (by simp)]
            simp
          have hkrest : (rest.takeWhile (fun d => d == '\n')).length ≤ 1 := by
            omega
          have h2 := hrest.2 (by omega)
          constructor
          · rw [hasTriple_cons]
            refine Bool.or_eq_false_iff.mpr ⟨?_, hrest.1⟩
            cases hcl : ((regexBF n rest).take 2 == ['\n', '\n']) with
            | false => simp [hcl]
            | true =>
              exfalso
              have htk : (regexBF n rest).take 2 = ['\n', '\n'] := by
                simpa using hcl
              have hge := takeWhile_ge_two_of_take htk
              rw [h2] at hge
              omega
          · intro _
            rw [List.takeWhile_cons, if_pos (by simp),
              List.takeWhile_cons, if_pos (by simp), h2]
      · rw [if_neg hc]
        have hrest := ih rest hlr
        constructor
        · rw [hasTriple_cons]
          refine Bool.or_eq_false_iff.mpr ⟨?_, hrest.1⟩
          simp [hc]
        · intro _
          rw [List.takeWhile_cons, if_neg (by simpa using hc),
            List.takeWhile_cons, if_neg (by simpa using hc)]

theorem hasTriple_regexB (l : List Char) : hasTriple (regexB l) = false :=
  (regexBF_good l.length l (Nat.le_refl _)).1

/-! ## C7 and C8: shape of normalize_markdown output -/

theorem pyRstrip_last (l : List Char) :
    pyRstrip l = [] ∨
      ∃ c, (pyRstrip l).getLast? = some c ∧ isPySpace c = false := by
  rw [pyRstrip]
  cases hd : l.reverse.dropWhile isPySpace with
  | nil => exact Or.inl rfl
  | cons c r =>
    refine Or.inr ⟨c, ?_, ?_⟩
    · rw [List.getLast?_reverse]
      rfl
    · exact dropWhile_head_not (p := isPySpace) (by rw [hd]; rfl)

theorem hasTriple_append_nl {z : List Char} (hz : hasTriple z = false)
    (hlast : z = [] ∨ ∃ c, z.getLast? = some c ∧ (c == '\n') = false) :
    hasTriple (z ++ ['\n']) = false := by
  induction z with
  | nil => rfl
  | cons c0 z' ih =>
    rcases hlast with h | ⟨c, hc, hcn⟩
    · cases h
    rw [List.cons_append, hasTriple_cons]
    apply Bool.or_eq_false_iff.mpr
    cases z' with
    | nil =>
      simp only [List.getLast?_singleton, Option.some.injEq] at hc
      subst hc
      constructor
      · simp [hcn]
      · rfl
    | cons z1 z1' =>
      have hlast' : (z1 :: z1').getLast? = some c := by
        rw [← hc, List.getLast?_cons_cons]
      refine ⟨?_, ih (hasTriple_tail hz) (Or.inr ⟨c, hlast', hcn⟩)⟩
      cases hcl : (c0 == '\n' &&
          ((z1 :: z1') ++ ['\n']).take 2 == ['\n', '\n']) with
      | false => rfl
      | true =>
        exfalso
        have h1 := (Bool.and_eq_true _ _).mp hcl
        have htk : ((z1 :: z1') ++ ['\n']).take 2 = ['\n', '\n'] := by
          simpa using h1.2
        cases z1' with
        | nil =>
          simp only [List.singleton_append, List.take_succ_cons,
            List.take_succ_cons, List.take_zero] at htk
          have hz1 : z1 = '\n' := ((List.cons.injEq _ _ _ _).mp htk).1
          simp only [List.getLast?_singleton, Option.some.injEq] at hlast'
          rw [hlast'] at hz1
          rw [hz1] at hcn
          simp at hcn
        | cons z2 z2' =>
          rw [take_append_le (by simp)] at htk
          have : hasTriple (c0 :: z1 :: z2 :: z2') = true := by
            rw [hasTriple_cons]
            apply Bool.or_eq_true_iff.mpr
            left
            rw [show (z1 :: z2 :: z2').take 2 = [z1, z2] from by
              rw [List.take_succ_cons, List.take_succ_cons, List.take_zero]]
            rw [show (z1 :: z2 :: z2').take 2 = [z1, z2] from by
              rw [List.take_succ_cons, List.take_succ_cons, List.take_zero]] at htk
            simp [h1.1, htk]
          rw [this] at hz
          cases hz

/-- The output of normalize_markdown never holds three consecutive
newlines. -/
theorem normalize_noTriple (x : List Char) :
    hasTriple (normalize_markdown x) = false := by
  rw [normalize_markdown]
  by_cases hemp : x.isEmpty
  · rw [if_pos hemp]
    rfl
  · rw [if_neg hemp]
    set t5 := regexB (regexA (joinNl
      (((splitNl (crNorm (clean_html_artifacts x))).map stripLineT).filterMap
        bulletLine))) with ht5
    set t6 := t5.dropWhile (fun c => c == '\n') with ht6
    show hasTriple (pyRstrip t6 ++ ['\n']) = false
    have h5 : hasTriple t5 = false := hasTriple_regexB _
    have h6 : hasTriple t6 = false := by
      have : t5 = t5.takeWhile (fun c => c == '\n') ++ t6 := by
        rw [ht6, List.takeWhile_append_dropWhile]
      rw [this] at h5
      exact (hasTriple_append_false h5).2
    obtain ⟨w, hw, -⟩ := pyRstrip_append t6
    have hz : hasTriple (pyRstrip t6) = false := by
      rw [hw] at h6
      exact (hasTriple_append_false h6).1
    rcases pyRstrip_last t6 with h | ⟨c, hc, hcw⟩
    · rw [h]
      rfl
    · refine hasTriple_append_nl hz (Or.inr ⟨c, hc, ?_⟩)
      cases hcc : (c == '\n') with
      | false => rfl
      | true =>
        exfalso
        have : c = '\n' := by simpa using hcc
        rw [this] at hcw
        simp [isPySpace] at hcw

/-- C7 (confirmed): for every input, the output of normalize_markdown
contains no run of three or more consecutive newline characters: at most
one empty line separates any two non-empty lines, also when the input's
blank lines carry stray spaces or tabs. -/
theorem C7_blank_line_bound (x : List Char) :
    hasTriple (normalize_markdown x) = false := normalize_noTriple x

/-! ## Lemmas: the noWsNl invariant -/

theorem noWsNl_nil : noWsNl [] = true := rfl

theorem noWsNl_single (c : Char) : noWsNl [c] = true := rfl

theorem noWsNl_cons_cons (c d : Char) (t : List Char) :
    noWsNl (c :: d :: t) = (pairOk c d && noWsNl (d :: t)) := rfl

theorem pairOk_nl (d : Char) : pairOk '\n' d = true := by
  rw [pairOk]
  simp

theorem pairOk_not_ws {c : Char} (hc : isPySpace c = false) (d : Char) :
    pairOk c d = true := by
  rw [pairOk, hc]
  simp

theorem noWsNl_cons_iff {c : Char} {t : List Char} :
    noWsNl (c :: t) = true ↔
      noWsNl t = true ∧ ∀ d, t.head? = some d → pairOk c d = true := by
  cases t with
  | nil => simp [noWsNl]
  | cons d t2 =>
    rw [noWsNl_cons_cons]
    constructor
    · intro h
      have := (Bool.and_eq_true _ _).mp h
      exact ⟨this.2, fun e he => by
        simp only [List.head?_cons, Option.some.injEq] at he
        rw [← he]; exact this.1⟩
    · intro ⟨h1, h2⟩
      exact (Bool.and_eq_true _ _).mpr ⟨h2 d rfl, h1⟩

theorem noWsNl_tail {c : Char} {t : List Char} (h : noWsNl (c :: t) = true) :
    noWsNl t = true := (noWsNl_cons_iff.mp h).1

theorem noWsNl_of_no_nl {l : List Char} (h : '\n' ∉ l) : noWsNl l = true := by
  induction l with
  | nil => rfl
  | cons c t ih =>
    refine noWsNl_cons_iff.mpr ⟨ih (fun hm => h (List.mem_cons_of_mem c hm)), ?_⟩
    intro d hd
    rw [pairOk]
    have hdnl : ¬ d = '\n' := by
      intro he
      apply h
      apply List.mem_cons_of_mem
      cases t with
      | nil => simp at hd
      | cons t0 t2 =>
        simp only [List.head?_cons, Option.some.injEq] at hd
        rw [hd, he]
        exact List.mem_cons_self _ _
    simp [hdnl]

theorem noWsNl_suffix {a b : List Char} (h : noWsNl (a ++ b) = true) :
    noWsNl b = true := by
  induction a with
  | nil => simpa using h
  | cons c a' ih =>
    rw [List.cons_append] at h
    exact ih (noWsNl_tail h)

theorem noWsNl_prefix {a b : List Char} (h : noWsNl (a ++ b) = true) :
    noWsNl a = true := by
  induction a with
  | nil => rfl
  | cons c a' ih =>
    rw [List.cons_append] at h
    have h2 := noWsNl_cons_iff.mp h
    refine noWsNl_cons_iff.mpr ⟨ih h2.1, ?_⟩
    intro d hd
    apply h2.2
    cases a' with
    | nil => simp at hd
    | cons a0 a2 =>
      simp only [List.head?_cons, Option.some.injEq] at hd
      simpa using hd

theorem noWsNl_append {a b : List Char} (ha : noWsNl a = true)
    (hb : noWsNl b = true)
    (hbound : a = [] ∨ b = [] ∨
      ∃ c, a.getLast? = some c ∧ ∀ d, b.head? = some d → pairOk c d = true) :
    noWsNl (a ++ b) = true := by
  induction a with
  | nil => simpa using hb
  | cons c a' ih =>
    rw [List.cons_append]
    rcases hbound with h | h | ⟨e, he, hcd⟩
    · cases h
    · subst h
      simpa using ha
    cases a' with
    | nil =>
      simp only [List.getLast?_singleton, Option.some.injEq] at he
      subst he
      refine noWsNl_cons_iff.mpr ⟨hb, ?_⟩
      intro d hd
      exact hcd d (by simpa using hd)
    | cons a0 a2 =>
      have ha' := noWsNl_cons_iff.mp ha
      refine noWsNl_cons_iff.mpr ⟨ih ha'.1
        (Or.inr (Or.inr ⟨e, by rw [← he, List.getLast?_cons_cons], hcd⟩)), ?_⟩
      intro d hd
      apply ha'.2
      simp only [List.cons_append, List.head?_cons, Option.some.injEq] at hd ⊢
      exact hd

theorem noWsNl_cons_nl {R : List Char} (h : noWsNl R = true) :
    noWsNl ('\n' :: R) = true :=
  noWsNl_cons_iff.mpr ⟨h, fun d _ => pairOk_nl d⟩

/-- Joining lines that contain no newline and do not end in whitespace
yields a string in which no whitespace character precedes a newline. -/
theorem noWsNl_joinNl {M : List (List Char)}
    (h : ∀ l ∈ M, '\n' ∉ l ∧
      (l = [] ∨ ∃ c, l.getLast? = some c ∧ isPySpace c = false)) :
    noWsNl (joinNl M) = true := by
  induction M with
  | nil => rfl
  | cons l M' ih =>
    cases M' with
    | nil => exact noWsNl_of_no_nl (h l (by simp)).1
    | cons m M2 =>
      rw [joinNl_cons _ _ (by simp)]
      obtain ⟨hnl, hlast⟩ := h l (by simp)
      refine noWsNl_append (noWsNl_of_no_nl hnl)
        (noWsNl_cons_nl (ih (fun y hy => h y (List.mem_cons_of_mem l hy)))) ?_
      rcases hlast with h1 | ⟨c, hc, hcw⟩
      · exact Or.inl h1
      · exact Or.inr (Or.inr ⟨c, hc, fun d _ => pairOk_not_ws hcw d⟩)

/-! ## Lemmas: character provenance of the normalize pipeline -/

theorem subCr_mem {l : List Char} {d : Char} (hd : d ∈ subCr l) :
    d ∈ l ∨ d = '\n' := by
  rw [subCr] at hd
  obtain ⟨c, hc, hcd⟩ := List.mem_map.mp hd
  by_cases hr : c = '\r'
  · rw [if_pos hr] at hcd
    exact Or.inr hcd.symm
  · rw [if_neg hr] at hcd
    exact Or.inl (hcd ▸ hc)

theorem subCr_no_cr (l : List Char) : '\r' ∉ subCr l := by
  intro hm
  rw [subCr] at hm
  obtain ⟨c, -, hcd⟩ := List.mem_map.mp hm
  by_cases hr : c = '\r'
  · rw [if_pos hr] at hcd
    cases hcd
  · rw [if_neg hr] at hcd
    exact hr (hcd ▸ rfl)

theorem crNorm_mem {l : List Char} {d : Char} (hd : d ∈ crNorm l) :
    d ∈ l ∨ d = '\n' := by
  rw [crNorm] at hd
  rcases subCr_mem hd with hd | hd
  · rcases runScan_mem hd with hd | ⟨pr, hpr, hd⟩
    · exact Or.inl hd
    · simp at hpr
      rw [hpr] at hd
      simp at hd
      exact Or.inr hd
  · exact Or.inr hd

theorem crNorm_no_cr (l : List Char) : '\r' ∉ crNorm l := subCr_no_cr _

theorem stripLineT_mem {l : List Char} {d : Char} (hd : d ∈ stripLineT l) :
    d ∈ l := by
  rw [stripLineT] at hd
  exact List.mem_reverse.mp (mem_of_mem_dropWhile (List.mem_reverse.mp hd))

theorem tail_subset {l : List α} {d : α} (hd : d ∈ l.tail) : d ∈ l := by
  cases l with
  | nil => simp at hd
  | cons c t => exact List.mem_cons_of_mem c hd

theorem fixBullet_mem {l : List Char} {d : Char} (hd : d ∈ fixBullet l) :
    d ∈ l ∨ d = '*' ∨ d = ' ' := by
  rw [fixBullet] at hd
  by_cases hb : dblBullet l = true
  · rw [if_pos hb] at hd
    rcases List.mem_cons.mp hd with hd | hd
    · exact Or.inr (Or.inl hd)
    rcases List.mem_cons.mp hd with hd | hd
    · exact Or.inr (Or.inr hd)
    · exact Or.inl (mem_of_mem_dropWhile (tail_subset (mem_of_mem_dropWhile
        (tail_subset (mem_of_mem_dropWhile hd)))))
  · rw [if_neg hb] at hd
    exact Or.inl hd

theorem regexAF_mem :
    ∀ (n : Nat) (l : List Char), ∀ d ∈ regexAF n l, d ∈ l ∨ d = '\n' := by
  intro n
  induction n with
  | zero => intro l d hd; exact Or.inl hd
  | succ n ih =>
    intro l d hd
    cases l with
    | nil => simp [regexAF] at hd
    | cons c rest =>
      rw [regexAF] at hd
      by_cases hc : c = '\n'
      · rw [if_pos hc] at hd
        dsimp only at hd
        by_cases h4 : 4 ≤ (((c :: rest).takeWhile isPySpace).count '\n')
        · rw [if_pos h4] at hd
          rcases List.mem_cons.mp hd with hd | hd
          · exact Or.inr hd
          rcases List.mem_cons.mp hd with hd | hd
          · exact Or.inr hd
          · rcases ih _ d hd with hd | hd
            · exact Or.inl (mem_of_mem_drop hd)
            · exact Or.inr hd
        · rw [if_neg h4] at hd
          rcases List.mem_cons.mp hd with hd | hd
          · exact Or.inl (hd ▸ List.mem_cons_self c rest)
          · rcases ih _ d hd with hd | hd
            · exact Or.inl (List.mem_cons_of_mem c hd)
            · exact Or.inr hd
      · rw [if_neg hc] at hd
        rcases List.mem_cons.mp hd with hd | hd
        · exact Or.inl (hd ▸ List.mem_cons_self c rest)
        · rcases ih _ d hd with hd | hd
          · exact Or.inl (List.mem_cons_of_mem c hd)
          · exact Or.inr hd

theorem regexBF_mem :
    ∀ (n : Nat) (l : List Char), ∀ d ∈ regexBF n l, d ∈ l ∨ d = '\n' := by
  intro n
  induction n with
  | zero => intro l d hd; exact Or.inl hd
  | succ n ih =>
    intro l d hd
    cases l with
    | nil => simp [regexBF] at hd
    | cons c rest =>
      rw [regexBF] at hd
      by_cases hc : c = '\n'
      · rw [if_pos hc] at hd
        dsimp only at hd
        by_cases h3 : 3 ≤ ((c :: rest).takeWhile (fun d => d == '\n')).length
        · rw [if_pos h3] at hd
          rcases List.mem_cons.mp hd with hd | hd
          · exact Or.inr hd
          rcases List.mem_cons.mp hd with hd | hd
          · exact Or.inr hd
          · rcases ih _ d hd with hd | hd
            · exact Or.inl (mem_of_mem_drop hd)
            · exact Or.inr hd
        · rw [if_neg h3] at hd
          rcases List.mem_cons.mp hd with hd | hd
          · exact Or.inl (hd ▸ List.mem_cons_self c rest)
          · rcases ih _ d hd with hd | hd
            · exact Or.inl (List.mem_cons_of_mem c hd)
            · exact Or.inr hd
      · rw [if_neg hc] at hd
        rcases List.mem_cons.mp hd with hd | hd
        · exact Or.inl (hd ▸ List.mem_cons_self c rest)
        · rcases ih _ d hd with hd | hd
          · exact Or.inl (List.mem_cons_of_mem c hd)
          · exact Or.inr hd

theorem pyRstrip_mem {l : List Char} {d : Char} (hd : d ∈ pyRstrip l) :
    d ∈ l := by
  rw [pyRstrip] at hd
  exact List.mem_reverse.mp (mem_of_mem_dropWhile (List.mem_reverse.mp hd))

/-- A character outside the input and outside every replacement text does
not occur in the output of clean_html_artifacts. -/
theorem clean_html_not_mem {x : List Char} {c : Char} (hc : c ∉ x)
    (hS : c ∉ ['\n', '*', ' ', '<', '>', '&', '"', '\'']) :
    c ∉ clean_html_artifacts x := by
  have hstep : ∀ (pats : List (List Char × List Char)) (l : List Char),
      (∀ pr ∈ pats, ∀ e ∈ pr.2, e ∈ ['\n', '*', ' ', '<', '>', '&', '"', '\'']) →
      c ∉ l → c ∉ runScan pats l := by
    intro pats l hp hl hm
    rcases runScan_mem hm with hm | ⟨pr, hpr, hm⟩
    · exact hl hm
    · exact hS (hp pr hpr c hm)
  rw [clean_html_artifacts]
  by_cases hemp : x.isEmpty
  · rw [if_pos hemp]
    simp
  · rw [if_neg hemp]
    have n1 : c ∉ subLiPair x := hstep _ _ (by decide) hc
    have n2 : c ∉ subUl (subLiPair x) := hstep _ _ (by decide) n1
    have n3 : c ∉ subOl (subUl (subLiPair x)) := hstep _ _ (by decide) n2
    have n4 : c ∉ subLiOpen (subOl (subUl (subLiPair x))) := by
      intro hm
      rcases subLiOpenF_mem _ _ _ hm with h | h | h
      · exact n3 h
      · exact hS (by rw [h]; decide)
      · exact hS (by rw [h]; decide)
    have n5 : c ∉ subLiClose (subLiOpen (subOl (subUl (subLiPair x)))) :=
      hstep _ _ (by decide) n4
    have n6 : c ∉ removeTags (subLiClose (subLiOpen (subOl (subUl (subLiPair x))))) :=
      fun hm => n5 (removeTagsF_mem _ _ _ hm)
    have n7 : c ∉ subEntLt (removeTags (subLiClose (subLiOpen
        (subOl (subUl (subLiPair x)))))) := hstep _ _ (by decide) n6
    have n8 : c ∉ subEntGt (subEntLt (removeTags (subLiClose (subLiOpen
        (subOl (subUl (subLiPair x))))))) := hstep _ _ (by decide) n7
    have n9 : c ∉ subEntAmp (subEntGt (subEntLt (removeTags (subLiClose
        (subLiOpen (subOl (subUl (subLiPair x)))))))) :=
      hstep _ _ (by decide) n8
    have n10 : c ∉ subEntQuot (subEntAmp (subEntGt (subEntLt (removeTags
        (subLiClose (subLiOpen (subOl (subUl (subLiPair x))))))))) :=
      hstep _ _ (by decide) n9
    have n11 : c ∉ subEntApos (subEntQuot (subEntAmp (subEntGt (subEntLt
        (removeTags (subLiClose (subLiOpen (subOl (subUl (subLiPair x)))))))))) :=
      hstep _ _ (by decide) n10
    exact hstep _ _ (by decide) n11

/-! ## Lemmas: line shape after the bullet pass -/

theorem getLast?_eq_reverse_head (l : List α) : l.getLast? = l.reverse.head? := by
  conv_lhs => rw [← List.reverse_reverse l]
  rw [List.getLast?_reverse]

theorem getLast?_append_right {a b : List α} (hb : b ≠ []) :
    (a ++ b).getLast? = b.getLast? := by
  rw [getLast?_eq_reverse_head, getLast?_eq_reverse_head, List.reverse_append]
  cases hbr : b.reverse with
  | nil => exact absurd (by simpa using congrArg List.reverse hbr) hb
  | cons r0 rs => rw [List.cons_append]; rfl

theorem mem_of_getLast? {l : List α} {c : α} (h : l.getLast? = some c) :
    c ∈ l := by
  rw [getLast?_eq_reverse_head] at h
  cases hr : l.reverse with
  | nil => rw [hr] at h; cases h
  | cons r0 rs =>
    rw [hr] at h
    simp only [List.head?_cons, Option.some.injEq] at h
    apply List.mem_reverse.mp
    rw [hr, ← h]
    exact List.mem_cons_self _ _

theorem getLast?_some_of_ne_nil {l : List α} (h : l ≠ []) :
    ∃ c, l.getLast? = some c := by
  cases l with
  | nil => exact absurd rfl h
  | cons a t => exact ⟨(a :: t).getLast (by simp), List.getLast?_eq_getLast _ _⟩

theorem stripLineT_last {l : List Char} {c : Char}
    (h : (stripLineT l).getLast? = some c) : (c == ' ' || c == '\t') = false := by
  rw [stripLineT, List.getLast?_reverse] at h
  exact dropWhile_head_not (p := fun c => c == ' ' || c == '\t') h

theorem dropWhile_ne_nil_last {p : α → Bool} {l : List α}
    (h : l.dropWhile p ≠ []) : (l.dropWhile p).getLast? = l.getLast? := by
  conv_rhs => rw [← List.takeWhile_append_dropWhile (p := p) (l := l)]
  rw [getLast?_append_right h]

theorem dblBullet_shape {l : List Char} (h : dblBullet l = true) :
    ∃ r2 r4 c3 r5, l.dropWhile isPySpace = '*' :: r2 ∧
      r2.dropWhile isPySpace = '*' :: r4 ∧ r4 = c3 :: r5 ∧
      isPySpace c3 = true := by
  rw [dblBullet] at h
  cases h1 : l.dropWhile isPySpace with
  | nil => rw [h1] at h; cases h
  | cons c1 r2 =>
    rw [h1] at h
    have hand := (Bool.and_eq_true _ _).mp h
    have hc1 : c1 = '*' := by simpa using hand.1
    cases h2 : r2.dropWhile isPySpace with
    | nil => rw [h2] at hand; exact absurd hand.2 (by simp)
    | cons c2 r4 =>
      rw [h2] at hand
      have hand2 := (Bool.and_eq_true _ _).mp hand.2
      have hc2 : c2 = '*' := by simpa using hand2.1
      cases h4 : r4 with
      | nil => rw [h4] at hand2; exact absurd hand2.2 (by simp)
      | cons c3 r5 =>
        rw [h4] at hand2
        exact ⟨r2, r4, c3, r5, by rw [hc1], by rw [h2, hc2], h4, hand2.2⟩

/-- A line processed by the per-line bullet loop keeps the properties:
no newline, and if non-empty it ends in a non-whitespace character. -/
theorem bulletLine_good {l m : List Char}
    (hnl : '\n' ∉ l)
    (hlastws : ∀ c, l.getLast? = some c → isPySpace c = false)
    (hm : bulletLine l = some m) :
    '\n' ∉ m ∧ (m = [] ∨ ∃ c, m.getLast? = some c ∧ isPySpace c = false) := by
  rw [bulletLine] at hm
  by_cases hstar : pyStrip l = ['*']
  · rw [if_pos hstar] at hm; cases hm
  · rw [if_neg hstar] at hm
    have hm' : m = fixBullet l := by
      simpa using hm.symm
    by_cases hdbl : dblBullet l = true
    · obtain ⟨r2, r4, c3, r5, hs1, hs2, hs4, hws3⟩ := dblBullet_shape hdbl
      have hfix : m = '*' :: ' ' :: r4.dropWhile isPySpace := by
        rw [hm', fixBullet, if_pos hdbl, hs1]
        simp only [List.tail_cons]
        rw [hs2]
        simp only [List.tail_cons]
      -- r4's characters live in l
      have hr4sub : ∀ d ∈ r4, d ∈ l := by
        intro d hd
        have hd2 : d ∈ r2.dropWhile isPySpace := by
          rw [hs2]; exact List.mem_cons_of_mem _ hd
        have hd3 : d ∈ r2 := mem_of_mem_dropWhile hd2
        have hd4 : d ∈ l.dropWhile isPySpace := by
          rw [hs1]; exact List.mem_cons_of_mem _ hd3
        exact mem_of_mem_dropWhile hd4
      -- last of l equals last of r4
      have hr2ne : r2 ≠ [] := by
        intro he
        rw [he] at hs2
        cases hs2
      have hr4ne : r4 ≠ [] := by rw [hs4]; simp
      have hlast_l_r4 : l.getLast? = r4.getLast? := by
        have e1 : l.getLast? = ('*' :: r2).getLast? := by
          rw [← hs1]
          exact (dropWhile_ne_nil_last (by rw [hs1]; simp)).symm
        have e2 : ('*' :: r2).getLast? = r2.getLast? := by
          rw [show ('*' :: r2) = ['*'] ++ r2 from rfl, getLast?_append_right hr2ne]
        have e3 : r2.getLast? = ('*' :: r4).getLast? := by
          rw [← hs2]
          exact (dropWhile_ne_nil_last (by rw [hs2]; simp)).symm
        have e4 : ('*' :: r4).getLast? = r4.getLast? := by
          rw [show ('*' :: r4) = ['*'] ++ r4 from rfl, getLast?_append_right hr4ne]
        rw [e1, e2, e3, e4]
      have hr5ne : r4.dropWhile isPySpace ≠ [] := by
        intro he
        obtain ⟨c, hc⟩ := getLast?_some_of_ne_nil hr4ne
        have hcl : l.getLast? = some c := by rw [hlast_l_r4, hc]
        have hcw := hlastws c hcl
        have hallws := List.dropWhile_eq_nil_iff.mp he
        rw [hallws c (mem_of_getLast? hc)] at hcw
        cases hcw
      constructor
      · rw [hfix]
        intro hmm
        rcases List.mem_cons.mp hmm with h | h
        · cases h
        rcases List.mem_cons.mp h with h | h
        · cases h
        · exact hnl (hr4sub _ (mem_of_mem_dropWhile h))
      · refine Or.inr ?_
        obtain ⟨c, hc⟩ := getLast?_some_of_ne_nil hr5ne
        refine ⟨c, ?_, ?_⟩
        · rw [hfix, show ('*' :: ' ' :: r4.dropWhile isPySpace)
              = ['*', ' '] ++ r4.dropWhile isPySpace from rfl,
            getLast?_append_right hr5ne, hc]
        · apply hlastws
          rw [hlast_l_r4, ← dropWhile_ne_nil_last hr5ne, hc]
    · have hmeq : m = l := by
        rw [hm', fixBullet, if_neg hdbl]
      refine ⟨fun hmm => hnl (hmeq ▸ hmm), ?_⟩
      by_cases hme : m = []
      · exact Or.inl hme
      · obtain ⟨c, hc⟩ := getLast?_some_of_ne_nil hme
        refine Or.inr ⟨c, hc, hlastws c ?_⟩
        rw [← hmeq]
        exact hc

/-! ## Lemmas: regexA and regexB preserve the noWsNl invariant -/

theorem regexAF_head : ∀ (n : Nat) (l : List Char),
    (regexAF n l).head? = l.head? := by
  intro n
  induction n with
  | zero => intro l; rfl
  | succ n ih =>
    intro l
    cases l with
    | nil => rfl
    | cons c rest =>
      rw [regexAF]
      by_cases hc : c = '\n'
      · rw [if_pos hc]
        dsimp only
        split
        · simp [hc]
        · rfl
      · rw [if_neg hc]
        rfl

theorem noWsNl_cons_of_head {c : Char} {t : List Char}
    (ht : noWsNl t = true)
    (hp : ∀ d, t.head? = some d → pairOk c d = true) :
    noWsNl (c :: t) = true := noWsNl_cons_iff.mpr ⟨ht, hp⟩

theorem regexAF_noWsNl : ∀ (n : Nat) (l : List Char),
    noWsNl l = true → noWsNl (regexAF n l) = true := by
  intro n
  induction n with
  | zero => intro l h; exact h
  | succ n ih =>
    intro l h
    cases l with
    | nil => rfl
    | cons c rest =>
      rw [regexAF]
      by_cases hc : c = '\n'
      · rw [if_pos hc]
        dsimp only
        split
        · have hsuf : noWsNl (((c :: rest).drop
              ((((c :: rest).takeWhile isPySpace).reverse.dropWhile
                (fun d => !(d == '\n'))).reverse).length)) = true := by
            have := List.take_append_drop
              ((((c :: rest).takeWhile isPySpace).reverse.dropWhile
                (fun d => !(d == '\n'))).reverse).length (c :: rest)
            rw [← this] at h
            exact noWsNl_suffix h
          refine noWsNl_cons_of_head (noWsNl_cons_of_head (ih _ hsuf)
            (fun d _ => pairOk_nl d)) (fun d _ => pairOk_nl d)
        · refine noWsNl_cons_of_head (ih _ (noWsNl_tail h)) ?_
          intro d hd
          rw [regexAF_head] at hd
          rw [hc]
          exact pairOk_nl d
      · rw [if_neg hc]
        refine noWsNl_cons_of_head (ih _ (noWsNl_tail h)) ?_
        intro d hd
        rw [regexAF_head] at hd
        exact (noWsNl_cons_iff.mp h).2 d hd

theorem regexBF_noWsNl : ∀ (n : Nat) (l : List Char),
    noWsNl l = true → noWsNl (regexBF n l) = true := by
  intro n
  induction n with
  | zero => intro l h; exact h
  | succ n ih =>
    intro l h
    cases l with
    | nil => rfl
    | cons c rest =>
      rw [regexBF]
      by_cases hc : c = '\n'
      · rw [if_pos hc]
        dsimp only
        split
        · have hsuf : noWsNl ((c :: rest).drop
              ((c :: rest).takeWhile (fun d => d == '\n')).length) = true := by
            have := List.take_append_drop
              ((c :: rest).takeWhile (fun d => d == '\n')).length (c :: rest)
            rw [← this] at h
            exact noWsNl_suffix h
          refine noWsNl_cons_of_head (noWsNl_cons_of_head (ih _ hsuf)
            (fun d _ => pairOk_nl d)) (fun d _ => pairOk_nl d)
        · refine noWsNl_cons_of_head (ih _ (noWsNl_tail h)) ?_
          intro d hd
          rw [regexBF_head] at hd
          rw [hc]
          exact pairOk_nl d
      · rw [if_neg hc]
        refine noWsNl_cons_of_head (ih _ (noWsNl_tail h)) ?_
        intro d hd
        rw [regexBF_head] at hd
        exact (noWsNl_cons_iff.mp h).2 d hd

/-! ## C8: trailing form of normalize_markdown -/

theorem normalize_eq_form (x : List Char) (hx : x.isEmpty = false) :
    normalize_markdown x =
      pyRstrip ((regexB (regexA (joinNl (((splitNl (crNorm
        (clean_html_artifacts x))).map stripLineT).filterMap
          bulletLine)))).dropWhile (fun c => c == '\n')) ++ ['\n'] := by
  rw [normalize_markdown, if_neg (by simp [hx])]

theorem normalize_noWsNl (x : List Char)
    (hxs : ∀ c ∈ x, isPySpace c = true →
      c = ' ' ∨ c = '\t' ∨ c = '\n' ∨ c = '\r') :
    noWsNl (normalize_markdown x) = true := by
  by_cases hemp : x.isEmpty = true
  · rw [normalize_markdown, if_pos hemp]
    rfl
  · rw [normalize_eq_form x (Bool.not_eq_true _ ▸ hemp)]
    set t2 := crNorm (clean_html_artifacts x) with ht2
    have hM : ∀ m ∈ ((splitNl t2).map stripLineT).filterMap bulletLine,
        '\n' ∉ m ∧ (m = [] ∨ ∃ c, m.getLast? = some c ∧ isPySpace c = false) := by
      intro m hm
      obtain ⟨l, hl, hbl⟩ := List.mem_filterMap.mp hm
      obtain ⟨l1, hl1, hleq⟩ := List.mem_map.mp hl
      subst hleq
      have hsub : ∀ d, d ∈ stripLineT l1 → d ∈ t2 := by
        intro d hd
        have h1 : d ∈ l1 := stripLineT_mem hd
        have h2 := mem_joinNl hl1 h1
        rwa [joinNl_splitNl] at h2
      refine bulletLine_good ?_ ?_ hbl
      · intro hmm
        exact no_nl_of_mem_splitNl t2 l1 hl1 (stripLineT_mem hmm)
      · intro c hc
        have hsp := stripLineT_last hc
        have hmem : c ∈ stripLineT l1 := mem_of_getLast? hc
        have hmt2 : c ∈ t2 := hsub _ hmem
        have hnotnl : ¬ c = '\n' := fun he =>
          no_nl_of_mem_splitNl t2 l1 hl1 (stripLineT_mem (he ▸ hmem))
        have hnotcr : ¬ c = '\r' := fun he => crNorm_no_cr _ (he ▸ hmt2)
        have hnotsp : ¬ c = ' ' := by
          intro he
          rw [he] at hsp
          simp at hsp
        have hnottab : ¬ c = '\t' := by
          intro he
          rw [he] at hsp
          simp at hsp
        cases hic : isPySpace c with
        | false => rfl
        | true =>
          exfalso
          rcases crNorm_mem hmt2 with h | h
          · by_cases hcx : c ∈ x
            · rcases hxs c hcx hic with h2 | h2 | h2 | h2
              · exact hnotsp h2
              · exact hnottab h2
              · exact hnotnl h2
              · exact hnotcr h2
            · by_cases hcs : c ∈ ['\n', '*', ' ', '<', '>', '&', '"', '\'']
              · simp only [List.mem_cons, List.not_mem_nil, or_false] at hcs
                rcases hcs with h2 | h2 | h2 | h2 | h2 | h2 | h2 | h2
                · exact hnotnl h2
                · rw [h2] at hic
                  exact absurd hic (by decide)
                · exact hnotsp h2
                · rw [h2] at hic
                  exact absurd hic (by decide)
                · rw [h2] at hic
                  exact absurd hic (by decide)
                · rw [h2] at hic
                  exact absurd hic (by decide)
                · rw [h2] at hic
                  exact absurd hic (by decide)
                · rw [h2] at hic
                  exact absurd hic (by decide)
              · exact clean_html_not_mem hcx hcs h
          · exact hnotnl h
    have h4 : noWsNl (joinNl (((splitNl t2).map stripLineT).filterMap
        bulletLine)) = true := noWsNl_joinNl hM
    have h5 : noWsNl (regexB (regexA (joinNl (((splitNl t2).map
        stripLineT).filterMap bulletLine)))) = true := by
      rw [regexB, regexA]
      exact regexBF_noWsNl _ _ (regexAF_noWsNl _ _ h4)
    set t5 := regexB (regexA (joinNl (((splitNl t2).map stripLineT).filterMap
      bulletLine))) with ht5
    have h6 : noWsNl (t5.dropWhile (fun c => c == '\n')) = true := by
      have := List.takeWhile_append_dropWhile (p := fun c => c == '\n') (l := t5)
      rw [← this] at h5
      exact noWsNl_suffix h5
    obtain ⟨w, hw, -⟩ := pyRstrip_append (t5.dropWhile (fun c => c == '\n'))
    have h7 : noWsNl (pyRstrip (t5.dropWhile (fun c => c == '\n'))) = true := by
      rw [hw] at h6
      exact noWsNl_prefix h6
    refine noWsNl_append h7 rfl ?_
    rcases pyRstrip_last (t5.dropWhile (fun c => c == '\n')) with h | ⟨c, hc, hcw⟩
    · exact Or.inl h
    · exact Or.inr (Or.inr ⟨c, hc, fun d _ => pairOk_not_ws hcw d⟩)

theorem normalize_end (x : List Char) (hx : x.isEmpty = false) :
    ∃ z, normalize_markdown x = z ++ ['\n'] ∧
      (z = [] ∨ ∃ c, z.getLast? = some c ∧ isPySpace c = false) := by
  rw [normalize_eq_form x hx]
  exact ⟨_, rfl, pyRstrip_last _⟩

theorem normalize_head (x : List Char)
    (h : (normalize_markdown x).head? = some '\n') :
    normalize_markdown x = ['\n'] := by
  by_cases hemp : x.isEmpty = true
  · rw [normalize_markdown, if_pos hemp] at h
    cases h
  · rw [normalize_eq_form x (Bool.not_eq_true _ ▸ hemp)] at h ⊢
    set t6 := (regexB (regexA (joinNl (((splitNl (crNorm
      (clean_html_artifacts x))).map stripLineT).filterMap
        bulletLine)))).dropWhile (fun c => c == '\n') with ht6
    cases hz : pyRstrip t6 with
    | nil => rfl
    | cons z0 z' =>
      exfalso
      rw [hz, List.cons_append, List.head?_cons] at h
      simp only [Option.some.injEq] at h
      obtain ⟨w, hw, -⟩ := pyRstrip_append t6
      have hh : t6.head? = some z0 := by
        rw [hw, hz]
        rfl
      have := dropWhile_head_not (p := fun c => c == '\n') hh
      rw [h] at this
      simp at this

/-- C8 (corrected): for every non-empty input the output ends with exactly
one newline (it is z ++ "\n" where z does not end in a newline); when
every whitespace character of the input is a space, tab, newline or
carriage return, no whitespace — in particular no space or tab —
immediately precedes a newline, so no line of the output ends in a space
or tab; the output begins with a newline only when it is exactly "\n"; and
the empty input yields the empty output.  The original claim fails on
whitespace-only inputs (output "\n" begins with a newline) and on a
doubled-bullet line whose separating whitespace is a character the
trailing-space strip does not remove, such as a no-break space, which
leaves a line ending in a space; see the counterexample. -/
theorem C8_trailing_form (x : List Char) (hx : x ≠ [])
    (hxs : ∀ c ∈ x, isPySpace c = true →
      c = ' ' ∨ c = '\t' ∨ c = '\n' ∨ c = '\r') :
    (∃ z, normalize_markdown x = z ++ ['\n'] ∧ ¬ z.getLast? = some '\n') ∧
    noWsNl (normalize_markdown x) = true ∧
    ((normalize_markdown x).head? = some '\n' → normalize_markdown x = ['\n']) ∧
    normalize_markdown [] = [] := by
  have hxe : x.isEmpty = false := by
    cases x with
    | nil => exact absurd rfl hx
    | cons c t => rfl
  refine ⟨?_, normalize_noWsNl x hxs, normalize_head x, rfl⟩
  obtain ⟨z, hz, hlast⟩ := normalize_end x hxe
  refine ⟨z, hz, ?_⟩
  rcases hlast with h | ⟨c, hc, hcw⟩
  · rw [h]
    simp
  · rw [hc]
    intro he
    simp only [Option.some.injEq] at he
    rw [he] at hcw
    exact absurd hcw (by decide)

theorem C8_witness :
    normalize_markdown "hello".data = "hello\n".data ∧
    noWsNl (normalize_markdown "hello".data) = true :=
  ⟨by decide,
    (C8_trailing_form "hello".data (by decide) (by decide)).2.1⟩

/-- C8 counterexample: normalize_markdown of the whitespace-only input " "
is "\n", which begins with a newline; and normalize_markdown of
"* *\xa0\nb" (the bullets separated by a no-break space, which the \s
of the doubled-bullet regex matches but the [ \t]+$ trailing strip does
not remove) is "* \nb\n", whose first line ends in a space. -/
theorem C8_counterexample :
    normalize_markdown " ".data = "\n".data ∧
    ("\n".data).head? = some '\n' ∧
    normalize_markdown "* *\xa0\nb".data = "* \nb\n".data ∧
    noWsNl "* \nb\n".data = false := by
  refine ⟨by decide, by decide, by decide, by decide⟩

/-! ## C1: stage-by-stage identity lemmas for a second normalization pass -/

theorem subLiOpenF_id : ∀ (n : Nat) (l : List Char), '<' ∉ l →
    subLiOpenF n l = l := by
  intro n
  induction n with
  | zero => intro l _; rfl
  | succ n ih =>
    intro l h
    cases l with
    | nil => rfl
    | cons c rest =>
      rw [subLiOpenF]
      have hc : ¬ ("<li".data.isPrefixOf (c :: rest) = true) := by
        intro hp
        exact h (((List.isPrefixOf_iff_prefix).mp hp).subset (by decide))
      rw [if_neg hc, ih rest (fun hm => h (List.mem_cons_of_mem c hm))]

theorem removeTagsF_id : ∀ (n : Nat) (l : List Char), '<' ∉ l →
    removeTagsF n l = l := by
  intro n
  induction n with
  | zero => intro l _; rfl
  | succ n ih =>
    intro l h
    cases l with
    | nil => rfl
    | cons c rest =>
      rw [removeTagsF]
      have hc : ¬ ((c == '<') = true) := by
        intro hp
        have : c = '<' := by simpa using hp
        exact h (this ▸ List.mem_cons_self c rest)
      rw [if_neg hc, ih rest (fun hm => h (List.mem_cons_of_mem c hm))]

theorem clean_html_id {x : List Char} (hlt : '<' ∉ x) (hamp : '&' ∉ x) :
    clean_html_artifacts x = x := by
  have hstep : ∀ (pats : List (List Char × List Char)) (l : List Char),
      (∀ pr ∈ pats, '<' ∈ pr.1 ∨ '&' ∈ pr.1) → '<' ∉ l → '&' ∉ l →
      runScan pats l = l := by
    intro pats l hp h1 h2
    apply runScan_id
    intro pr hpr
    rcases hp pr hpr with h | h
    · exact ⟨'<', h, h1⟩
    · exact ⟨'&', h, h2⟩
  rw [clean_html_artifacts]
  by_cases hemp : x.isEmpty
  · rw [if_pos hemp]
    exact (List.isEmpty_iff.mp hemp).symm
  · rw [if_neg hemp]
    have e1 : subLiPair x = x := hstep _ _ (by decide) hlt hamp
    rw [show subLiPair x = x from e1]
    rw [show subUl x = x from hstep _ _ (by decide) hlt hamp]
    rw [show subOl x = x from hstep _ _ (by decide) hlt hamp]
    rw [show subLiOpen x = x from subLiOpenF_id _ _ hlt]
    rw [show subLiClose x = x from hstep _ _ (by decide) hlt hamp]
    rw [show removeTags x = x from removeTagsF_id _ _ hlt]
    rw [show subEntLt x = x from hstep _ _ (by decide) hlt hamp]
    rw [show subEntGt x = x from hstep _ _ (by decide) hlt hamp]
    rw [show subEntAmp x = x from hstep _ _ (by decide) hlt hamp]
    rw [show subEntQuot x = x from hstep _ _ (by decide) hlt hamp]
    rw [show subEntApos x = x from hstep _ _ (by decide) hlt hamp]
    rw [show subEntNbsp x = x from hstep _ _ (by decide) hlt hamp]

theorem subCr_id {l : List Char} (h : '\r' ∉ l) : subCr l = l := by
  induction l with
  | nil => rfl
  | cons c t ih =>
    rw [subCr, List.map_cons]
    have hc : ¬ c = '\r' := by
      intro he
      exact h (by rw [← he]; exact List.mem_cons_self c t)
    show (if c = '\r' then '\n' else c) :: List.map _ t = c :: t
    rw [if_neg hc]
    show c :: subCr t = c :: t
    rw [ih (fun hm => h (List.mem_cons_of_mem c hm))]

theorem crNorm_id {l : List Char} (h : '\r' ∉ l) : crNorm l = l := by
  rw [crNorm]
  have e1 : subCrlf l = l := by
    rw [subCrlf]
    apply runScan_id
    intro pr hpr
    simp only [List.mem_cons, List.not_mem_nil, or_false] at hpr
    refine ⟨'\r', ?_, h⟩
    rw [hpr]
    decide
  rw [e1, subCr_id h]

theorem stripLineT_eq_self {l : List Char}
    (h : l = [] ∨ ∃ c, l.getLast? = some c ∧ isPySpace c = false) :
    stripLineT l = l := by
  rcases h with h | ⟨c, hc, hcw⟩
  · rw [h]
    rfl
  · rw [getLast?_eq_reverse_head] at hc
    cases hr : l.reverse with
    | nil =>
      rw [hr] at hc
      cases hc
    | cons a t =>
      rw [hr] at hc
      simp only [List.head?_cons, Option.some.injEq] at hc
      subst hc
      have hp : ¬ ((a == ' ' || a == '\t') = true) := by
        intro hsp
        rcases Bool.or_eq_true_iff.mp hsp with h1 | h1
        · rw [show a = ' ' from by simpa using h1] at hcw
          simp [isPySpace] at hcw
        · rw [show a = '\t' from by simpa using h1] at hcw
          simp [isPySpace] at hcw
      rw [stripLineT, hr, List.dropWhile_cons, if_neg hp, ← hr,
        List.reverse_reverse]

theorem splitNl_cons_nl (rest : List Char) :
    splitNl ('\n' :: rest) = [] :: splitNl rest := by
  rw [splitNl, if_pos rfl]

theorem splitNl_cons_eq {c : Char} {rest h0 : List Char}
    {tl : List (List Char)} (hc : ¬ c = '\n') (hsp : splitNl rest = h0 :: tl) :
    splitNl (c :: rest) = (c :: h0) :: tl := by
  rw [splitNl, if_neg hc, hsp]

theorem splitNl_head_nil : ∀ (rest : List Char) (tl : List (List Char)),
    splitNl rest = [] :: tl → rest = [] ∨ rest.head? = some '\n' := by
  intro rest tl hsp
  cases rest with
  | nil => exact Or.inl rfl
  | cons r0 r1 =>
    by_cases hr : r0 = '\n'
    · exact Or.inr (by rw [hr]; rfl)
    · exfalso
      cases hsp2 : splitNl r1 with
      | nil => exact splitNl_ne_nil r1 hsp2
      | cons q0 q1 =>
        rw [splitNl_cons_eq hr hsp2] at hsp
        injection hsp with h1 h2
        exact List.cons_ne_nil _ _ h1

/-- In a string with no whitespace directly before a newline that itself
ends in a newline, every line is empty or ends in a non-whitespace
character. -/
theorem splitNl_lines_last : ∀ (t : List Char), noWsNl t = true →
    t.getLast? = some '\n' →
    ∀ l ∈ splitNl t, l = [] ∨ ∃ c, l.getLast? = some c ∧ isPySpace c = false := by
  intro t
  induction t with
  | nil =>
    intro _ hlast
    cases hlast
  | cons c rest ih =>
    intro hws hlast l hl
    by_cases hc : c = '\n'
    · subst hc
      rw [splitNl_cons_nl] at hl
      rcases List.mem_cons.mp hl with h | h
      · exact Or.inl h
      · cases hrest : rest with
        | nil =>
          rw [hrest] at h
          simp only [show splitNl [] = [[]] from rfl, List.mem_singleton] at h
          exact Or.inl h
        | cons r0 r1 =>
          refine ih (noWsNl_tail hws) ?_ l (hrest ▸ h)
          rw [hrest] at hlast ⊢
          rwa [List.getLast?_cons_cons] at hlast
    · have hrestne : rest ≠ [] := by
        intro he
        rw [he] at hlast
        simp only [List.getLast?_singleton, Option.some.injEq] at hlast
        exact hc hlast
      have hlast' : rest.getLast? = some '\n' := by
        cases hrest : rest with
        | nil => exact absurd hrest hrestne
        | cons r0 r1 =>
          rw [hrest] at hlast
          rwa [List.getLast?_cons_cons] at hlast
      cases hsp : splitNl rest with
      | nil => exact absurd hsp (splitNl_ne_nil rest)
      | cons h0 tl =>
        rw [splitNl_cons_eq hc hsp] at hl
        rcases List.mem_cons.mp hl with h | h
        · subst h
          cases hh0 : h0 with
          | nil =>
            refine Or.inr ⟨c, by simp, ?_⟩
            rcases splitNl_head_nil rest tl (hh0 ▸ hsp) with h | h
            · exact absurd h hrestne
            · have hp := (noWsNl_cons_iff.mp hws).2 '\n' h
              cases hic : isPySpace c with
              | false => rfl
              | true =>
                exfalso
                rw [pairOk, hic] at hp
                simp [hc] at hp
          | cons a r =>
            have hg := ih (noWsNl_tail hws) hlast' h0
              (hsp ▸ List.mem_cons_self h0 tl)
            rcases hg with h | ⟨d, hd, hdw⟩
            · rw [h] at hh0
              cases hh0
            · refine Or.inr ⟨d, ?_, hdw⟩
              rw [List.getLast?_cons_cons, ← hh0]
              exact hd
        · exact ih (noWsNl_tail hws) hlast' l
            (hsp ▸ List.mem_cons_of_mem h0 h)

theorem map_id_of_eq {f : α → α} : ∀ (l : List α), (∀ a ∈ l, f a = a) →
    l.map f = l := by
  intro l
  induction l with
  | nil => intro _; rfl
  | cons a t ih =>
    intro h
    rw [List.map_cons, h a (List.mem_cons_self a t),
      ih (fun b hb => h b (List.mem_cons_of_mem a hb))]

theorem filterMap_id_of_some {f : α → Option α} : ∀ (l : List α),
    (∀ a ∈ l, f a = some a) → l.filterMap f = l := by
  intro l
  induction l with
  | nil => intro _; rfl
  | cons a t ih =>
    intro h
    rw [List.filterMap_cons, h a (List.mem_cons_self a t),
      ih (fun b hb => h b (List.mem_cons_of_mem a hb))]

/-- Under noWsNl, a whitespace run that starts at a non-newline whitespace
character holds no newline. -/
theorem nl_not_mem_run : ∀ (t : List Char) (c : Char),
    noWsNl (c :: t) = true → isPySpace c = true → (c == '\n') = false →
    '\n' ∉ (c :: t).takeWhile isPySpace := by
  intro t
  induction t with
  | nil =>
    intro c _ hsp hcn hm
    rw [List.takeWhile_cons, if_pos hsp] at hm
    rcases List.mem_cons.mp hm with h | h
    · rw [← h] at hcn
      exact absurd hcn (by decide)
    · simp at h
  | cons d t' ih =>
    intro c hws hsp hcn hm
    rw [List.takeWhile_cons, if_pos hsp] at hm
    rcases List.mem_cons.mp hm with h | h
    · rw [← h] at hcn
      exact absurd hcn (by decide)
    · have hpair := (noWsNl_cons_iff.mp hws).2 d rfl
      have hdn : (d == '\n') = false := by
        cases hdd : (d == '\n') with
        | false => rfl
        | true =>
          exfalso
          have hd' : d = '\n' := by simpa using hdd
          rw [pairOk, hsp, hd'] at hpair
          simp only [Bool.true_and, beq_self_eq_true, Bool.and_true] at hpair
          have hcn2 : (c == '\n') = true := by simpa using hpair
          rw [hcn2] at hcn
          cases hcn
      cases hdsp : isPySpace d with
      | false =>
        rw [List.takeWhile_cons, if_neg (by simp [hdsp])] at h
        simp at h
      | true =>
        exact ih d (noWsNl_tail hws) hdsp hdn h

/-- Under noWsNl, the newlines of a whitespace run form its prefix: the
newline count of the run equals the length of the leading newline run. -/
theorem count_run_eq : ∀ (l : List Char), noWsNl l = true →
    (l.takeWhile isPySpace).count '\n'
      = (l.takeWhile (fun d => d == '\n')).length := by
  intro l
  induction l with
  | nil => intro _; rfl
  | cons c t ih =>
    intro hws
    cases hsp : isPySpace c with
    | false =>
      have hcn : (c == '\n') = false := by
        cases hx : (c == '\n') with
        | false => rfl
        | true =>
          exfalso
          rw [show c = '\n' from by simpa using hx] at hsp
          simp [isPySpace] at hsp
      rw [List.takeWhile_cons, if_neg (by simp [hsp]), List.takeWhile_cons,
        if_neg (by simp [hcn])]
      rfl
    | true =>
      cases hcn : (c == '\n') with
      | true =>
        rw [List.takeWhile_cons, if_pos hsp, List.takeWhile_cons, if_pos hcn,
          List.length_cons, List.count_cons, ih (noWsNl_tail hws)]
        simp [hcn]
      | false =>
        have hnm := nl_not_mem_run t c hws hsp hcn
        rw [List.count_eq_zero_of_not_mem hnm, List.takeWhile_cons,
          if_neg (by simp [hcn])]
        rfl

theorem nlrun_le_two {l : List Char} (h : hasTriple l = false) :
    (l.takeWhile (fun d => d == '\n')).length ≤ 2 := by
  by_contra hgt
  push_neg at hgt
  have h3 := @hasTriple_of_takeWhile_ge l (by omega)
  rw [h3] at h
  cases h

/-- On a string with no triple newline and no whitespace before a newline,
the first blank-line-collapsing regex is the identity. -/
theorem regexAF_id : ∀ (n : Nat) (l : List Char), noWsNl l = true →
    hasTriple l = false → regexAF n l = l := by
  intro n
  induction n with
  | zero => intro l _ _; rfl
  | succ n ih =>
    intro l hws htr
    cases l with
    | nil => rfl
    | cons c rest =>
      rw [regexAF]
      by_cases hc : c = '\n'
      · rw [if_pos hc]
        dsimp only
        have hlt : ¬ 4 ≤ (((c :: rest).takeWhile isPySpace).count '\n') := by
          rw [count_run_eq _ hws]
          have h2 := nlrun_le_two htr
          omega
        rw [if_neg hlt, ih rest (noWsNl_tail hws) (hasTriple_tail htr)]
      · rw [if_neg hc, ih rest (noWsNl_tail hws) (hasTriple_tail htr)]

/-- On a string with no triple newline, the second blank-line-collapsing
regex is the identity. -/
theorem regexBF_id : ∀ (n : Nat) (l : List Char), hasTriple l = false →
    regexBF n l = l := by
  intro n
  induction n with
  | zero => intro l _; rfl
  | succ n ih =>
    intro l htr
    cases l with
    | nil => rfl
    | cons c rest =>
      rw [regexBF]
      by_cases hc : c = '\n'
      · rw [if_pos hc]
        dsimp only
        have hlt : ¬ 3 ≤ ((c :: rest).takeWhile (fun d => d == '\n')).length := by
          have h2 := nlrun_le_two htr
          omega
        rw [if_neg hlt, ih rest (hasTriple_tail htr)]
      · rw [if_neg hc, ih rest (hasTriple_tail htr)]

theorem dropWhile_eq_self_head {p : α → Bool} {l : List α} {c : α}
    (hh : l.head? = some c) (hp : p c = false) : l.dropWhile p = l := by
  cases l with
  | nil => cases hh
  | cons a t =>
    simp only [List.head?_cons, Option.some.injEq] at hh
    subst hh
    rw [List.dropWhile_cons, if_neg (by simp [hp])]

theorem pyRstrip_snoc {z : List Char} {c : Char} (hc : z.getLast? = some c)
    (hcw : isPySpace c = false) : pyRstrip (z ++ ['\n']) = z := by
  have h1 : (z ++ ['\n']).reverse = '\n' :: z.reverse := by simp
  rw [pyRstrip, h1, List.dropWhile_cons, if_pos (by decide)]
  rw [getLast?_eq_reverse_head] at hc
  rw [dropWhile_eq_self_head hc hcw, List.reverse_reverse]

/-- Every character of the output of normalize_markdown stems from the
cleaned, line-ending-normalized input or is a newline, asterisk or space
inserted by the pipeline. -/
theorem normalize_mem {x : List Char} {d : Char}
    (hd : d ∈ normalize_markdown x) :
    d ∈ crNorm (clean_html_artifacts x) ∨ d = '\n' ∨ d = '*' ∨ d = ' ' := by
  by_cases hemp : x.isEmpty = true
  · rw [normalize_markdown, if_pos hemp] at hd
    cases hd
  · rw [normalize_eq_form x (Bool.not_eq_true _ ▸ hemp)] at hd
    rcases List.mem_append.mp hd with hd | hd
    · have hd2 := mem_of_mem_dropWhile (pyRstrip_mem hd)
      rw [regexB] at hd2
      rcases regexBF_mem _ _ _ hd2 with hd3 | hd3
      · rw [regexA] at hd3
        rcases regexAF_mem _ _ _ hd3 with hd4 | hd4
        · rcases mem_of_mem_joinNl hd4 with h | ⟨m, hm, hdm⟩
          · exact Or.inr (Or.inl h)
          · obtain ⟨l1, hl1, hbl⟩ := List.mem_filterMap.mp hm
            obtain ⟨l2, hl2, hleq⟩ := List.mem_map.mp hl1
            have hm2 : m = fixBullet l1 := by
              rw [bulletLine] at hbl
              by_cases hps : pyStrip l1 = ['*']
              · rw [if_pos hps] at hbl
                cases hbl
              · rw [if_neg hps] at hbl
                injection hbl with h
                exact h.symm
            subst hm2
            rcases fixBullet_mem hdm with h | h | h
            · rw [← hleq] at h
              have h6 := mem_joinNl hl2 (stripLineT_mem h)
              rw [joinNl_splitNl] at h6
              exact Or.inl h6
            · exact Or.inr (Or.inr (Or.inl h))
            · exact Or.inr (Or.inr (Or.inr h))
        · exact Or.inr (Or.inl hd4)
      · exact Or.inr (Or.inl hd3)
    · rcases List.mem_singleton.mp hd with h
      exact Or.inr (Or.inl h)

theorem normalize_no_cr (x : List Char) : '\r' ∉ normalize_markdown x := by
  intro hm
  rcases normalize_mem hm with h | h | h | h
  · exact crNorm_no_cr _ h
  · exact absurd h (by decide)
  · exact absurd h (by decide)
  · exact absurd h (by decide)

/-- C1 (corrected): normalize_markdown is idempotent on inputs free of
'&' and '<' in which every whitespace character is a space, tab, newline
or carriage return, and whose normalized form has no line that strips to
a lone asterisk and no line opening with a doubled bullet marker.
Unconditionally the claim is false: the doubled-bullet rewrite removes
one doubling per pass, so "* * * a" needs two passes to settle; see the
counterexample. -/
theorem C1_idempotent (x : List Char)
    (hamp : '&' ∉ x) (hlt : '<' ∉ x)
    (hxs : ∀ c ∈ x, isPySpace c = true →
      c = ' ' ∨ c = '\t' ∨ c = '\n' ∨ c = '\r')
    (hlines : ∀ l ∈ splitNl (normalize_markdown x),
      pyStrip l ≠ ['*'] ∧ dblBullet l = false) :
    normalize_markdown (normalize_markdown x) = normalize_markdown x := by
  by_cases hemp : x.isEmpty = true
  · have h0 : normalize_markdown x = [] := by
      rw [normalize_markdown, if_pos hemp]
    rw [h0]
    rfl
  · have hxe : x.isEmpty = false := Bool.not_eq_true _ ▸ hemp
    have hcleanx : clean_html_artifacts x = x := clean_html_id hlt hamp
    have hsub : ∀ d, d ∈ normalize_markdown x →
        d ∈ x ∨ d = '\n' ∨ d = '*' ∨ d = ' ' := by
      intro d hdm
      rcases normalize_mem hdm with h | h | h | h
      · rw [hcleanx] at h
        rcases crNorm_mem h with h2 | h2
        · exact Or.inl h2
        · exact Or.inr (Or.inl h2)
      · exact Or.inr (Or.inl h)
      · exact Or.inr (Or.inr (Or.inl h))
      · exact Or.inr (Or.inr (Or.inr h))
    have hylt : '<' ∉ normalize_markdown x := by
      intro hm
      rcases hsub '<' hm with h | h | h | h
      · exact hlt h
      · exact absurd h (by decide)
      · exact absurd h (by decide)
      · exact absurd h (by decide)
    have hyamp : '&' ∉ normalize_markdown x := by
      intro hm
      rcases hsub '&' hm with h | h | h | h
      · exact hamp h
      · exact absurd h (by decide)
      · exact absurd h (by decide)
      · exact absurd h (by decide)
    have hycr : '\r' ∉ normalize_markdown x := normalize_no_cr x
    obtain ⟨z, hz, hzlast⟩ := normalize_end x hxe
    have hyne : (normalize_markdown x).isEmpty = false := by
      rw [hz]
      cases z <;> rfl
    have hws : noWsNl (normalize_markdown x) = true := normalize_noWsNl x hxs
    have htr : hasTriple (normalize_markdown x) = false := normalize_noTriple x
    have hylast : (normalize_markdown x).getLast? = some '\n' := by
      rw [hz, getLast?_append_right (List.cons_ne_nil _ _)]
      rfl
    have hE1 : clean_html_artifacts (normalize_markdown x)
        = normalize_markdown x := clean_html_id hylt hyamp
    have hE2 : crNorm (normalize_markdown x) = normalize_markdown x :=
      crNorm_id hycr
    have hlines2 : ∀ l ∈ splitNl (normalize_markdown x),
        stripLineT l = l ∧ bulletLine l = some l := by
      intro l hl
      have hgood := splitNl_lines_last _ hws hylast l hl
      refine ⟨stripLineT_eq_self hgood, ?_⟩
      obtain ⟨hps, hdb⟩ := hlines l hl
      rw [bulletLine, if_neg hps, fixBullet, if_neg (by simp [hdb])]
    have hmap : (splitNl (normalize_markdown x)).map stripLineT
        = splitNl (normalize_markdown x) :=
      map_id_of_eq _ (fun l hl => (hlines2 l hl).1)
    have hfm : (splitNl (normalize_markdown x)).filterMap bulletLine
        = splitNl (normalize_markdown x) :=
      filterMap_id_of_some _ (fun l hl => (hlines2 l hl).2)
    have hE4 : regexA (normalize_markdown x) = normalize_markdown x := by
      rw [regexA]
      exact regexAF_id _ _ hws htr
    have hE5 : regexB (normalize_markdown x) = normalize_markdown x := by
      rw [regexB]
      exact regexBF_id _ _ htr
    rw [normalize_eq_form (normalize_markdown x) hyne, hE1, hE2, hmap, hfm,
      joinNl_splitNl, hE4, hE5]
    by_cases hhead : (normalize_markdown x).head? = some '\n'
    · rw [normalize_head x hhead]
      rfl
    · have hdw : (normalize_markdown x).dropWhile (fun c => c == '\n')
          = normalize_markdown x := by
        cases hh : (normalize_markdown x).head? with
        | none =>
          have he : normalize_markdown x = [] := by
            cases hxx : normalize_markdown x with
            | nil => rfl
            | cons a t =>
              rw [hxx] at hh
              cases hh
          rw [he]
          rfl
        | some c =>
          refine dropWhile_eq_self_head hh ?_
          cases hcc : (c == '\n') with
          | false => rfl
          | true =>
            exfalso
            exact hhead (by rw [hh, show c = '\n' from by simpa using hcc])
      rw [hdw]
      rcases hzlast with hznil | ⟨c, hcz, hcw⟩
      · exfalso
        apply hhead
        rw [hz, hznil]
        rfl
      · rw [hz, pyRstrip_snoc hcz hcw]

theorem C1_witness :
    ('&' ∉ "* hello\n\n\n\nworld".data) ∧
    normalize_markdown (normalize_markdown "* hello\n\n\n\nworld".data)
      = normalize_markdown "* hello\n\n\n\nworld".data :=
  ⟨by decide, C1_idempotent _ (by decide) (by decide) (by decide) (by decide)⟩

/-- C1 counterexample: normalize_markdown is not idempotent.  The
doubled-bullet rewrite strips one doubling per pass: the first pass sends
"* * * a" to "* * a\n", which still opens with a doubled bullet, so the
second pass yields the different string "* a\n". -/
theorem C1_counterexample :
    normalize_markdown "* * * a".data = "* * a\n".data ∧
    normalize_markdown (normalize_markdown "* * * a".data) = "* a\n".data ∧
    normalize_markdown (normalize_markdown "* * * a".data)
      ≠ normalize_markdown "* * * a".data := by
  refine ⟨by decide, by decide, by decide⟩

/-! ## C2: re-applying an accepted patch -/

/-- C2 (corrected): accepting the same patch a second time returns the
first result E unchanged whenever the first pass's final normalization
preserved the section's surroundings: the heading still matches (at line
j of E, line i of the patched base), the lines of E up to and including
the heading equal those of the base document, and the lines after the
section's body equal those after the base's original body.  Nothing is
assumed about the body itself or about E being a normalization fixpoint:
the second replacement then rebuilds the very same pre-normalization
document, so the second result is literally the first.  Unconditionally
the claim is false: appending a missing section inserts a blank line
below the new heading, while replacing an existing section does not, so
the two applications differ on a document without the section; see the
counterexample. -/
theorem C2_patch_idempotent (D s b E : List Char) (i j : Nat)
    (h0 : apply_external_patch D s b = some E)
    (hsf : pyStrip s ≠ "FULL_DOCUMENT_SYNC".data)
    (hbase : firstMatch (headingMatch (pyStrip s)) (splitNl (patchBase D))
      = some i)
    (hE : firstMatch (headingMatch (pyStrip s)) (splitNl E) = some j)
    (hpre : (splitNl E).take (j + 1) = (splitNl (patchBase D)).take (i + 1))
    (hsuf : ((splitNl E).drop (j + 1)).drop
          (bodyLen ((splitNl E).drop (j + 1)))
        = ((splitNl (patchBase D)).drop (i + 1)).drop
          (bodyLen ((splitNl (patchBase D)).drop (i + 1)))) :
    apply_external_patch E s b = some E := by
  have hs0 : ¬ pyStrip s = [] := by
    intro hs
    rw [apply_external_patch, if_pos hs] at h0
    cases h0
  rw [apply_external_patch, if_neg hs0, if_neg hsf] at h0 ⊢
  have hEe : E = normalize_markdown (apply_patch_to_section (patchBase D)
      (pyStrip s) (normalize_markdown b)) := by
    injection h0 with h
    exact h.symm
  have hEne : patchBase E = E := by
    rw [patchBase, if_neg ?_]
    intro he
    rw [he] at hE
    have hnone : firstMatch (headingMatch (pyStrip s))
        (splitNl ([] : List Char)) = none := rfl
    rw [hnone] at hE
    cases hE
  have ht : apply_patch_to_section E (pyStrip s) (normalize_markdown b)
      = apply_patch_to_section (patchBase D) (pyStrip s)
        (normalize_markdown b) := by
    simp only [apply_patch_to_section, hE, hbase]
    rw [hpre, hsuf]
  rw [hEne, ht, ← hEe]

theorem C2_witness :
    apply_external_patch "## Setting\ny\n".data "Setting".data "y".data
      = some "## Setting\ny\n".data :=
  C2_patch_idempotent "## Setting\nold".data "Setting".data "y".data
    "## Setting\ny\n".data 0 0 (by decide) (by decide) (by decide)
    (by decide) (by decide) (by decide)

/-- C2 counterexample: accepting the same patch twice is not idempotent.
Patching a document that lacks the section appends it with a blank line
below the new heading; re-applying the identical patch replaces the now
existing section body without that blank line, yielding a different
document. -/
theorem C2_counterexample :
    apply_external_patch "# T".data "Setting".data "y".data
      = some "# T\n\n## Setting\n\ny\n".data ∧
    apply_external_patch "# T\n\n## Setting\n\ny\n".data "Setting".data
        "y".data
      = some "# T\n\n## Setting\ny\n".data ∧
    ("# T\n\n## Setting\ny\n".data : List Char)
      ≠ "# T\n\n## Setting\n\ny\n".data := by
  refine ⟨by decide, by decide, by decide⟩

/-! Sanity checks of the embedding on the repository's own test vectors. -/

example : normalize_markdown "Line1\n\n\n\nLine2\n\n\n\n\nLine3".data
    = "Line1\n\nLine2\n\nLine3\n".data := by decide

example : normalize_markdown "Line1   \nLine2\t\t\n   Line3   ".data
    = "Line1\nLine2\n   Line3\n".data := by decide

example : normalize_markdown "# Header 1\n\n\n\n## Header 2\n### Header 3\n\nContent".data
    = "# Header 1\n\n## Header 2\n### Header 3\n\nContent\n".data := by decide

example : normalize_markdown "".data = "".data := by decide

example : clean_html_artifacts "Title &amp; subtitle &lt;test&gt; &quot;quoted&quot; &nbsp; content".data
    = "Title & subtitle <test> \"quoted\"   content".data := by decide

example : clean_html_artifacts "<ul><li>Item 1</li><li>Item 2</li></ul>\n<li>Item 3</li>\nMore content".data
    = "* Item 1\n* Item 2\n* Item 3\nMore content".data := by decide

example : normalize_markdown "* Item 1\n\n\n* Item 2\n* Item 3\n\n\n\n\n* Item 4".data
    = "* Item 1\n\n* Item 2\n* Item 3\n\n* Item 4\n".data := by decide

example : extract_section "# P\n\n## Setting\n\nOld\n\n## Characters\n\nKane\n".data "Setting".data
    = "Old".data := by decide

example : extract_section "# P\n\n## Setting\n\nOld\n\n## Characters\n\nKane\n".data "characters".data
    = "Kane".data := by decide

example : apply_patch_to_section "# P\n\n## Setting\n\nOld\n\n## Characters\n\nKane\n".data
    "Setting".data "New Place".data
    = "# P\n\n## Setting\nNew Place\n## Characters\n\nKane\n".data := by decide

example : dblBullet "* *\xa0x".data = true := by decide

example : pyStrip "\xa0*\xa0".data = "*".data := by decide

example : apply_external_patch [] "Setting".data "y".data
    = some ("# My Project\n\n## Ideas-Notes\n\n## Setting\ny\n" ++
        "\n## Full Outline\n\n## Characters\n").data := by decide

end Writegeist
